import Mathlib

/-!
# Alpine package version comparison (`version.go`)

A shallow embedding of the tokenizer and of `CompareVersions`.

* A Go `string` is a sequence of bytes: `List UInt8`.
* Go's `int` is taken to be 64 bits wide; the only arithmetic that can leave that
  range is the base-10 accumulation of a digit run, which wraps (`wrapInt`).
* A run-time panic (index out of range, slice bounds out of range, the explicit
  `panic("skipped too far")`) is a `Fault`; every operation returns `Except Fault _`.
* The receiver `*ApkVersion` is mutated in place by the Go code; here every method
  returns the updated cursor next to its result.
* Loops are unrolled by structural recursion on a fuel counter; running out of
  fuel is the separate fault `Fault.outOfFuel`.
-/

namespace Version

/-! ## Constants -/

def ApkVersionUnknown : Nat := 0
def ApkVersionEqual : Nat := 1
def ApkVersionLess : Nat := 2
def ApkVersionGreater : Nat := 4
def ApkVersionFuzzy : Nat := 8

/-- The byte of an ASCII character literal such as `'0'`. -/
def ch (c : Char) : UInt8 := c.toNat.toUInt8

/-- The bytes of a string literal (the literals used here are ASCII). -/
def bytes (s : String) : List UInt8 := s.toList.map ch

def isDigit (c : UInt8) : Bool := (ch '0').toNat ≤ c.toNat && c.toNat ≤ (ch '9').toNat

def isLower (c : UInt8) : Bool := (ch 'a').toNat ≤ c.toNat && c.toNat ≤ (ch 'z').toNat

/-! ## Token types -/

/-- The Go type `tokenType` with its eight named constants. -/
inductive tokenType where
  | tokenInvalid
  | tokenDigitOrZero
  | tokenDigit
  | tokenLetter
  | tokenSuffix
  | tokenSuffixNo
  | tokenRevisionNo
  | tokenEnd
deriving DecidableEq, Repr

open tokenType

/-- The integer behind a token type: `iota - 1`, so `tokenInvalid = -1`, ..., `tokenEnd = 6`. -/
def tokenType.toInt : tokenType → Int
  | tokenInvalid => -1
  | tokenDigitOrZero => 0
  | tokenDigit => 1
  | tokenLetter => 2
  | tokenSuffix => 3
  | tokenSuffixNo => 4
  | tokenRevisionNo => 5
  | tokenEnd => 6

/-! ## Faults and machine integers -/

/-- The ways a run can fail to produce a value. -/
inductive Fault where
  | indexOutOfRange
  | sliceOutOfRange
  | skippedTooFar
  | outOfFuel
deriving DecidableEq, Repr

/-- A 64-bit two's complement `int`: the representative of `x` in `[-2^63, 2^63)`. -/
def wrapInt (x : Int) : Int := (x + 2 ^ 63) % 2 ^ 64 - 2 ^ 63

/-! ## The cursor -/

/-- The Go struct `ApkVersion`: the version string and the read position.
`pos` starts at `0` and is only ever increased, so it is a natural number. -/
structure ApkVersion where
  version : List UInt8
  pos : Nat
deriving DecidableEq, Repr

namespace ApkVersion

def left (v : ApkVersion) : Int := (v.version.length : Int) - (v.pos : Int)

def skip (v : ApkVersion) (n : Nat) : Except Fault ApkVersion :=
  let v1 : ApkVersion := { v with pos := v.pos + n }
  if v1.pos > v1.version.length then .error .skippedTooFar else .ok v1

def peekAt (v : ApkVersion) (offset : Int) : Except Fault UInt8 :=
  let idx : Int := (v.pos : Int) + offset
  if idx < 0 then .error .indexOutOfRange
  else
    match v.version[idx.toNat]? with
    | some c => .ok c
    | none => .error .indexOutOfRange

def next (v : ApkVersion) : Except Fault (UInt8 × ApkVersion) :=
  let v1 : ApkVersion := { v with pos := v.pos + 1 }
  match v1.peekAt (-1) with
  | .ok c => .ok (c, v1)
  | .error e => .error e

def peek (v : ApkVersion) : Except Fault UInt8 := v.peekAt 0

def peekCount (v : ApkVersion) (count : Nat) : Except Fault (List UInt8) :=
  if v.pos + count ≤ v.version.length then .ok ((v.version.drop v.pos).take count)
  else .error .sliceOutOfRange

def isEOF (v : ApkVersion) : Bool := v.pos == v.version.length

end ApkVersion

/-! ## `nextToken` -/

/-- The `if`/`else if`/`switch` chain of `nextToken`: the value of `ret` before the final
monotonicity check. In `(cur == tokenDigit || cur == tokenDigitOrZero) && isLower(v.peek())`
and its two siblings the byte is read only when the left operand holds. -/
def ApkVersion.nextTokenScan (v : ApkVersion) (cur : tokenType) : Except Fault (tokenType × ApkVersion) := do
  if v.isEOF then
    pure (tokenEnd, v)
  else
    let c1 ← if cur = tokenDigit ∨ cur = tokenDigitOrZero then isLower <$> v.peek else pure false
    if c1 then
      pure (tokenLetter, v)
    else
      let c2 ← if cur = tokenLetter then isDigit <$> v.peek else pure false
      if c2 then
        pure (tokenDigit, v)
      else
        let c3 ← if cur = tokenSuffix then isDigit <$> v.peek else pure false
        if c3 then
          pure (tokenSuffixNo, v)
        else
          let (c, v1) ← v.next
          if c = ch '.' then
            pure (tokenDigitOrZero, v1)
          else if c = ch '_' then
            pure (tokenSuffix, v1)
          else if c = ch '-' then
            let c4 ← if v1.left > 0 then (fun x => decide (x = ch 'r')) <$> v1.peek else pure false
            if c4 then
              let (_, v2) ← v1.next
              pure (tokenRevisionNo, v2)
            else
              pure (tokenInvalid, v1)
          else
            pure (tokenInvalid, v1)

/-- The final `if ret < cur { ... }` of `nextToken`. -/
def clamp (ret cur : tokenType) : tokenType :=
  if ret.toInt < cur.toInt then
    if ¬ ((ret = tokenDigitOrZero ∧ cur = tokenDigit) ∨
        (ret = tokenSuffix ∧ cur = tokenSuffixNo) ∨
        (ret = tokenDigit ∧ cur = tokenLetter)) then tokenInvalid
    else ret
  else ret

def ApkVersion.nextToken (v : ApkVersion) (cur : tokenType) : Except Fault (tokenType × ApkVersion) := do
  let (ret, v1) ← v.nextTokenScan cur
  pure (clamp ret cur, v1)

/-! ## `getToken` -/

def preSuffixes : List (List UInt8) := [bytes "alpha", bytes "beta", bytes "pre", bytes "rc"]
def postSuffixes : List (List UInt8) := [bytes "cvs", bytes "svn", bytes "git", bytes "hg", bytes "p"]

/-- `for i = 0; i < v.left() && v.peekAt(i) == '0'; i++ {}`, entered with the given `i`;
returns `i` on leaving the loop. -/
def ApkVersion.zeroLoop (v : ApkVersion) : Nat → Nat → Except Fault Nat
  | 0, _ => .error .outOfFuel
  | fuel + 1, i =>
    if (i : Int) < v.left then do
      let c ← v.peekAt i
      if c = ch '0' then v.zeroLoop fuel (i + 1) else pure i
    else pure i

/-- `for i = 0; i < v.left() && isDigit(v.peekAt(i)); i++ { val *= 10; val += int(v.peekAt(i) - '0') }`,
entered with the given `i` and `val`; returns `(i, val)` on leaving the loop. -/
def ApkVersion.digitLoop (v : ApkVersion) : Nat → Nat → Int → Except Fault (Nat × Int)
  | 0, _, _ => .error .outOfFuel
  | fuel + 1, i, val =>
    if (i : Int) < v.left then do
      let c ← v.peekAt i
      if isDigit c then
        let val1 := wrapInt (val * 10)
        let d ← v.peekAt i
        let val2 := wrapInt (val1 + ((d - ch '0').toNat : Int))
        v.digitLoop fuel (i + 1) val2
      else pure (i, val)
    else pure (i, val)

/-- `for val = 0; val < len(table); val++ { i = len(table[val]); if len(table[val]) <= v.left() &&
v.peekCount(i) == table[val] { break } }`, entered with the given `val` and `i`; returns
`(val, i)` on leaving the loop. -/
def ApkVersion.suffixLoop (v : ApkVersion) (table : List (List UInt8)) :
    Nat → Nat → Nat → Except Fault (Nat × Nat)
  | 0, _, _ => .error .outOfFuel
  | fuel + 1, val, i =>
    if val < table.length then
      let s := table.getD val []
      let i1 := s.length
      if (s.length : Int) ≤ v.left then do
        let p ← v.peekCount i1
        if p = s then pure (val, i1) else v.suffixLoop table fuel (val + 1) i1
      else v.suffixLoop table fuel (val + 1) i1
    else pure (val, i)

/-- The `switch cur` of `getToken`, entered with `nt = tokenInvalid`, `i = 0`, `val = 0`.
`none` is the `default` case, which returns `tokenInvalid, -1` from `getToken`;
`some (nt, i, val)` are the values of the three variables on leaving the switch. -/
def ApkVersion.getTokenSwitch (v : ApkVersion) (cur : tokenType) :
    Except Fault (Option (tokenType × Nat × Int)) := do
  let digits : Except Fault (Option (tokenType × Nat × Int)) := do
    let (i, val) ← v.digitLoop (v.version.length + 1) 0 0
    pure (some (tokenInvalid, i, val))
  match cur with
  | tokenDigitOrZero =>
    let c ← v.peek
    if c = ch '0' then
      let i ← v.zeroLoop (v.version.length + 1) 0
      pure (some (tokenDigit, i, -(i : Int)))
    else digits
  | tokenDigit => digits
  | tokenSuffixNo => digits
  | tokenRevisionNo => digits
  | tokenLetter =>
    let c ← v.peek
    pure (some (tokenInvalid, 1, (c.toNat : Int)))
  | tokenSuffix =>
    let (val, i) ← v.suffixLoop preSuffixes (preSuffixes.length + 1) 0 0
    if val < preSuffixes.length then
      pure (some (tokenInvalid, i, (val : Int) - (preSuffixes.length : Int)))
    else
      let (val, i) ← v.suffixLoop postSuffixes (postSuffixes.length + 1) 0 i
      if val < postSuffixes.length then
        pure (some (tokenInvalid, i, (val : Int)))
      else pure none
  | _ => pure none

def ApkVersion.getToken (v : ApkVersion) (cur : tokenType) : Except Fault ((tokenType × Int) × ApkVersion) := do
  if v.isEOF then
    pure ((tokenEnd, 0), v)
  else
    match ← getTokenSwitch v cur with
    | none => pure ((tokenInvalid, -1), v)
    | some (nt, i, val) =>
      let v1 ← v.skip i
      if v1.isEOF then
        pure ((tokenEnd, val), v1)
      else if nt = tokenInvalid then
        let (nt1, v2) ← v1.nextToken cur
        pure ((nt1, val), v2)
      else
        pure ((nt, val), v1)

/-! ## `NewVersion`, `CompareVersions`, `AlpineVersionLessThan` -/

def NewVersion (version : List UInt8) : ApkVersion := { version := version, pos := 0 }

/-- The state of the `for` loop of `CompareVersions`: `at`, `av`, `a`, `bt`, `bv`, `b`. -/
structure LoopState where
  aty : tokenType
  aval : Int
  a : ApkVersion
  bty : tokenType
  bval : Int
  b : ApkVersion
deriving DecidableEq, Repr

/-- `for at == bt && at != tokenEnd && at != tokenInvalid && av == bv { at, av = a.getToken(at);
bt, bv = b.getToken(bt) }`; returns the state on leaving the loop. -/
def compareLoop : Nat → LoopState → Except Fault LoopState
  | 0, _ => .error .outOfFuel
  | fuel + 1, s =>
    if s.aty = s.bty ∧ s.aty ≠ tokenEnd ∧ s.aty ≠ tokenInvalid ∧ s.aval = s.bval then do
      let ((at1, av1), a1) ← s.a.getToken s.aty
      let ((bt1, bv1), b1) ← s.b.getToken s.bty
      compareLoop fuel ⟨at1, av1, a1, bt1, bv1, b1⟩
    else pure s

/-- The part of `CompareVersions` after the loop. -/
def compareTail (s : LoopState) : Except Fault (Nat × ApkVersion × ApkVersion) := do
  if s.aval < s.bval then
    pure (ApkVersionLess, s.a, s.b)
  else if s.aval > s.bval then
    pure (ApkVersionGreater, s.a, s.b)
  else if s.aty = s.bty then
    pure (ApkVersionEqual, s.a, s.b)
  else
    let (va, a1) ← if s.aty = tokenSuffix then
        (fun r => (r.1.2, r.2)) <$> s.a.getToken s.aty else pure ((0 : Int), s.a)
    if s.aty = tokenSuffix ∧ va < 0 then
      pure (ApkVersionLess, a1, s.b)
    else
      let (vb, b1) ← if s.bty = tokenSuffix then
          (fun r => (r.1.2, r.2)) <$> s.b.getToken s.bty else pure ((0 : Int), s.b)
      if s.bty = tokenSuffix ∧ vb < 0 then
        pure (ApkVersionGreater, a1, b1)
      else if s.aty.toInt > s.bty.toInt then
        pure (ApkVersionLess, a1, b1)
      else if s.bty.toInt > s.aty.toInt then
        pure (ApkVersionGreater, a1, b1)
      else
        pure (ApkVersionEqual, a1, b1)

/-- `CompareVersions(a, b)`: `none` is a nil pointer. The result is the returned mask together
with the two handles as the call leaves them. `fuel` bounds the number of loop iterations. -/
def CompareVersions (fuel : Nat) (a b : Option ApkVersion) :
    Except Fault (Nat × Option ApkVersion × Option ApkVersion) :=
  match a, b with
  | none, none => pure (ApkVersionEqual, none, none)
  | none, some b => pure (ApkVersionEqual ||| ApkVersionGreater ||| ApkVersionLess, none, some b)
  | some a, none => pure (ApkVersionEqual ||| ApkVersionGreater ||| ApkVersionLess, some a, none)
  | some a, some b => do
    let s ← compareLoop fuel ⟨tokenDigit, 0, a, tokenDigit, 0, b⟩
    let (r, a1, b1) ← compareTail s
    pure (r, some a1, some b1)

/-- `AlpineVersionLessThan(vera, verb)`. -/
def AlpineVersionLessThan (fuel : Nat) (vera verb : Option ApkVersion) : Except Fault Bool := do
  let (r, _, _) ← CompareVersions fuel vera verb
  pure (decide (r = ApkVersionLess))

/-- Equality of results is decidable, so that concrete runs can be evaluated. -/
instance instDecidableEqExcept {ε α : Type} [DecidableEq ε] [DecidableEq α] :
    DecidableEq (Except ε α)
  | .ok a, .ok b =>
    if h : a = b then isTrue (by rw [h]) else isFalse (by intro h1; cases h1; exact h rfl)
  | .error a, .error b =>
    if h : a = b then isTrue (by rw [h]) else isFalse (by intro h1; cases h1; exact h rfl)
  | .ok _, .error _ => isFalse (by intro h; cases h)
  | .error _, .ok _ => isFalse (by intro h; cases h)

/-- The verdict of `CompareVersions(NewVersion(A), NewVersion(B))` on two fresh handles. -/
def compareFresh (fuel : Nat) (A B : List UInt8) : Except Fault Nat :=
  (fun r => r.1) <$> CompareVersions fuel (some (NewVersion A)) (some (NewVersion B))

/-! ## The tokenizer as a function of the unread bytes

The functions below restate `nextToken` and `getToken` on the list of bytes from the cursor
to the end of the string. They are proof devices: `getToken_eq` shows that the cursor
operations compute them. -/

/-- The bytes from the cursor to the end of the string. -/
def ApkVersion.rest (v : ApkVersion) : List UInt8 := v.version.drop v.pos

/-- The cursor moved `n` bytes forward. -/
def ApkVersion.advance (v : ApkVersion) (n : Nat) : ApkVersion := { v with pos := v.pos + n }

/-- The cursor invariant `pos ≤ len(version)`. -/
def ApkVersion.valid (v : ApkVersion) : Prop := v.pos ≤ v.version.length

/-- Number of leading `'0'` bytes. -/
def zeroRun : List UInt8 → Nat
  | [] => 0
  | c :: cs => if c = ch '0' then zeroRun cs + 1 else 0

/-- Length of the leading digit run and the wrapped base-10 value accumulated from `val`. -/
def digitRun : List UInt8 → Int → Nat × Int
  | [], val => (0, val)
  | c :: cs, val =>
    if isDigit c then
      let r := digitRun cs (wrapInt (wrapInt (val * 10) + ((c - ch '0').toNat : Int)))
      (r.1 + 1, r.2)
    else (0, val)

/-- First entry of `table` that is a prefix of `r`, counting from `val`; the second component
is the length of the last entry tried (`i` when there was none). -/
def suffixScan (r : List UInt8) : List (List UInt8) → Nat → Nat → Nat × Nat
  | [], val, i => (val, i)
  | s :: ss, val, _ =>
    if s.length ≤ r.length ∧ r.take s.length = s then (val, s.length)
    else suffixScan r ss (val + 1) s.length

def scanL (cur : tokenType) : List UInt8 → tokenType × Nat
  | [] => (tokenEnd, 0)
  | c :: cs =>
    if (cur = tokenDigit ∨ cur = tokenDigitOrZero) ∧ isLower c = true then (tokenLetter, 0)
    else if cur = tokenLetter ∧ isDigit c = true then (tokenDigit, 0)
    else if cur = tokenSuffix ∧ isDigit c = true then (tokenSuffixNo, 0)
    else if c = ch '.' then (tokenDigitOrZero, 1)
    else if c = ch '_' then (tokenSuffix, 1)
    else if c = ch '-' then
      match cs with
      | d :: _ => if d = ch 'r' then (tokenRevisionNo, 2) else (tokenInvalid, 1)
      | [] => (tokenInvalid, 1)
    else (tokenInvalid, 1)

/-- `nextToken` on the unread bytes: the returned type and the number of bytes consumed. -/
def nextTokenL (cur : tokenType) (r : List UInt8) : tokenType × Nat :=
  (clamp (scanL cur r).1 cur, (scanL cur r).2)

def switchL (cur : tokenType) (r : List UInt8) : Option (tokenType × Nat × Int) :=
  match cur with
  | tokenDigitOrZero =>
    if r.head? = some (ch '0') then some (tokenDigit, zeroRun r, -(zeroRun r : Int))
    else some (tokenInvalid, (digitRun r 0).1, (digitRun r 0).2)
  | tokenDigit => some (tokenInvalid, (digitRun r 0).1, (digitRun r 0).2)
  | tokenSuffixNo => some (tokenInvalid, (digitRun r 0).1, (digitRun r 0).2)
  | tokenRevisionNo => some (tokenInvalid, (digitRun r 0).1, (digitRun r 0).2)
  | tokenLetter => some (tokenInvalid, 1, ((r.headD 0).toNat : Int))
  | tokenSuffix =>
    let p := suffixScan r preSuffixes 0 0
    if p.1 < preSuffixes.length then
      some (tokenInvalid, p.2, (p.1 : Int) - (preSuffixes.length : Int))
    else
      let q := suffixScan r postSuffixes 0 p.2
      if q.1 < postSuffixes.length then some (tokenInvalid, q.2, (q.1 : Int)) else none
  | _ => none

/-- `getToken` on the unread bytes: the returned type, the returned value and the number of
bytes consumed. -/
def getTokenL (cur : tokenType) (r : List UInt8) : tokenType × Int × Nat :=
  if r = [] then (tokenEnd, 0, 0)
  else
    match switchL cur r with
    | none => (tokenInvalid, -1, 0)
    | some (nt, i, val) =>
      if r.drop i = [] then (tokenEnd, val, i)
      else if nt = tokenInvalid then
        ((nextTokenL cur (r.drop i)).1, val, i + (nextTokenL cur (r.drop i)).2)
      else (nt, val, i)

/-- The token types for which `getToken` reads a digit run. -/
def numeric (t : tokenType) : Bool :=
  t = tokenDigitOrZero || t = tokenDigit || t = tokenSuffixNo || t = tokenRevisionNo

/-- The token types that stop the loop of `CompareVersions`. -/
def terminal (t : tokenType) : Bool := t = tokenEnd || t = tokenInvalid

/-- Termination measure of the tokenizer: twice the number of unread bytes, one more when the
pending type reads a digit run (which may be empty), one more when the pending type is not
terminal. -/
def measure (t : tokenType) (r : List UInt8) : Nat :=
  if terminal t then 0 else 2 * r.length + (if numeric t then 1 else 0) + 1

/-- The rank of a pending token when two token streams part on it. A pre-release suffix
(`getToken` yields a negative value for it) ranks below everything; every other pending
type ranks by the negated token type, so that `tokenEnd` is lowest and `tokenInvalid`
highest. -/
def key (t : tokenType) (r : List UInt8) : Int :=
  if t = tokenSuffix ∧ (getTokenL tokenSuffix r).2.1 < 0 then -7 else -t.toInt

/-- The sequence `value, rank, value, rank, ...` of the tokens read from a cursor that
holds the value `v`, the pending type `t` and the unread bytes `r`. -/
def keysFuel : Nat → tokenType → Int → List UInt8 → List Int
  | 0, t, v, r => [v, key t r]
  | fuel + 1, t, v, r =>
    v :: key t r ::
      if terminal t then []
      else keysFuel fuel (getTokenL t r).1 (getTokenL t r).2.1 (r.drop (getTokenL t r).2.2)

/-- The key sequence of a cursor, unrolled as far as the termination measure allows. -/
def keys (t : tokenType) (v : Int) (r : List UInt8) : List Int := keysFuel (measure t r) t v r

/-- The verdict `r` agrees with the lexicographic order of two key sequences. -/
def Verdict (r : Nat) (x y : List Int) : Prop :=
  (r = ApkVersionLess ∧ List.Lex (· < ·) x y) ∨ (r = ApkVersionEqual ∧ x = y) ∨
    (r = ApkVersionGreater ∧ List.Lex (· < ·) y x)

/-! ## Well-formed versions -/

/-- A non-empty run of at most 18 decimal digits. -/
def isDigitRun (c : List UInt8) : Bool := !c.isEmpty && decide (c.length ≤ 18) && c.all isDigit

/-- The components joined by single `'.'` bytes. -/
def dotted : List (List UInt8) → List UInt8
  | [] => []
  | [c] => c
  | c :: cs => c ++ ch '.' :: dotted cs

/-- The decimal value of a digit string. -/
def decVal (d : List UInt8) : Nat := d.foldl (fun acc c => acc * 10 + (c.toNat - (ch '0').toNat)) 0

/-- The suffix words in priority order: the pre-release words, then the post-release words. -/
def suffixWords : List (List UInt8) := preSuffixes ++ postSuffixes

/-- A separator byte `s` after which `nextToken`, called after a digit run, announces the
type `T` and has consumed exactly that byte. -/
def IsSep (s : UInt8) (T : tokenType) : Prop :=
  isDigit s = false ∧ terminal T = false ∧
    ∀ (t : tokenType) (w : List UInt8), (t = tokenDigit ∨ t = tokenDigitOrZero) →
      nextTokenL t (s :: w) = (T, 1)

/-- The keys of a suffix word once the pending type `tokenSuffix` is known. -/
def suffixKeys (w : List UInt8) : List Int :=
  key tokenSuffix w ::
    keys (getTokenL tokenSuffix w).1 (getTokenL tokenSuffix w).2.1
      (w.drop (getTokenL tokenSuffix w).2.2)

/-- `CompareVersions(a, b)` called twice in a row on the same two handles: the verdict of
the first call and the verdict of the second call, which starts from the cursors as the
first call left them. -/
def compareTwice (fuel : Nat) (a b : Option ApkVersion) : Except Fault (Nat × Nat) := do
  let (r1, a1, b1) ← CompareVersions fuel a b
  let (r2, _, _) ← CompareVersions fuel a1 b1
  pure (r1, r2)

/-! ## Cursor operations on a valid cursor -/

namespace ApkVersion

theorem rest_length (v : ApkVersion) : v.rest.length = v.version.length - v.pos := by
  simp [rest]

theorem left_eq (v : ApkVersion) (h : v.valid) : v.left = (v.rest.length : Int) := by
  unfold valid at h
  rw [rest_length, left]
  omega

theorem rest_advance (v : ApkVersion) (n : Nat) : (v.advance n).rest = v.rest.drop n := by
  simp [rest, advance, List.drop_drop, Nat.add_comm]

theorem valid_advance (v : ApkVersion) (n : Nat) (h : v.valid) (hn : n ≤ v.rest.length) :
    (v.advance n).valid := by
  unfold valid at *
  rw [rest_length] at hn
  simp only [advance]
  omega

theorem isEOF_eq (v : ApkVersion) (h : v.valid) : v.isEOF = decide (v.rest = []) := by
  unfold valid at h
  have h1 := rest_length v
  simp only [isEOF, beq_iff_eq]
  by_cases h2 : v.pos = v.version.length
  · simp [h2, rest]
  · have : v.rest ≠ [] := by
      intro h3
      rw [h3] at h1
      simp at h1
      omega
    simp [h2, this]

theorem peekAt_eq (v : ApkVersion) (i : Nat) :
    v.peekAt (i : Int) =
      match v.rest[i]? with
      | some c => .ok c
      | none => .error .indexOutOfRange := by
  have h1 : ¬ ((v.pos : Int) + (i : Int) < 0) := by omega
  have h2 : ((v.pos : Int) + (i : Int)).toNat = v.pos + i := by omega
  simp only [peekAt, h1, h2, if_false, rest, List.getElem?_drop]

theorem peek_cons (v : ApkVersion) (c : UInt8) (cs : List UInt8) (h : v.rest = c :: cs) :
    v.peek = .ok c := by
  have := peekAt_eq v 0
  simp only [Nat.cast_zero] at this
  rw [peek, this, h]
  simp

theorem skip_eq (v : ApkVersion) (n : Nat) (h : v.valid) (hn : n ≤ v.rest.length) :
    v.skip n = .ok (v.advance n) := by
  unfold valid at h
  rw [rest_length] at hn
  have : ¬ (v.pos + n > v.version.length) := by omega
  simp [skip, advance, this]

theorem next_cons (v : ApkVersion) (c : UInt8) (cs : List UInt8) (h : v.rest = c :: cs) :
    v.next = .ok (c, v.advance 1) := by
  have h1 : ¬ ((v.pos : Int) + 1 + -1 < 0) := by omega
  have h2 : ((v.pos : Int) + 1 + -1).toNat = v.pos + 0 := by omega
  have h3 : v.version[v.pos + 0]? = some c := by
    rw [← List.getElem?_drop]
    show v.rest[0]? = some c
    rw [h]
    simp
  simp only [next, peekAt, Nat.cast_add, Nat.cast_one, h1, h2, h3, if_false, advance]

theorem peekCount_eq (v : ApkVersion) (n : Nat) (h : v.valid) (hn : n ≤ v.rest.length) :
    v.peekCount n = .ok (v.rest.take n) := by
  unfold valid at h
  rw [rest_length] at hn
  have : v.pos + n ≤ v.version.length := by omega
  simp [peekCount, this, rest]

theorem peekAt_drop (v : ApkVersion) (i : Nat) (c : UInt8) (cs : List UInt8)
    (h : v.rest.drop i = c :: cs) : v.peekAt (i : Int) = .ok c := by
  have h1 : v.rest[i]? = some c := by
    have := List.getElem?_drop v.rest i 0
    rw [h] at this
    simpa using this.symm
  rw [peekAt_eq, h1]

theorem drop_succ_of_drop {α : Type} (l : List α) (i : Nat) (c : α) (cs : List α)
    (h : l.drop i = c :: cs) : l.drop (i + 1) = cs := by
  have := List.drop_drop 1 i l
  rw [h] at this
  simpa [Nat.add_comm] using this.symm

theorem zeroLoop_eq (v : ApkVersion) (h : v.valid) :
    ∀ (fuel i : Nat), (v.rest.drop i).length < fuel →
      v.zeroLoop fuel i = .ok (i + zeroRun (v.rest.drop i)) := by
  intro fuel
  induction fuel with
  | zero => intro i hi; omega
  | succ n ih =>
    intro i hi
    rw [zeroLoop, left_eq v h]
    cases hd : v.rest.drop i with
    | nil =>
      have : ¬ ((i : Int) < (v.rest.length : Int)) := by
        have := congrArg List.length hd
        simp at this
        omega
      simp [this, zeroRun, pure, Except.pure]
    | cons c cs =>
      have hlt : (i : Int) < (v.rest.length : Int) := by
        have := congrArg List.length hd
        simp at this
        omega
      have hnext := drop_succ_of_drop _ _ _ _ hd
      rw [if_pos hlt, peekAt_drop v i c cs hd]
      by_cases hc : c = ch '0'
      · have hlen : (v.rest.drop (i + 1)).length < n := by
          rw [hnext]; rw [hd] at hi; simp at hi; omega
        simp only [bind, Except.bind, hc, if_true]
        rw [ih (i + 1) hlen, hnext]
        simp [zeroRun]
        omega
      · simp [bind, Except.bind, hc, zeroRun, pure, Except.pure]

theorem digitLoop_eq (v : ApkVersion) (h : v.valid) :
    ∀ (fuel i : Nat) (val : Int), (v.rest.drop i).length < fuel →
      v.digitLoop fuel i val =
        .ok (i + (digitRun (v.rest.drop i) val).1, (digitRun (v.rest.drop i) val).2) := by
  intro fuel
  induction fuel with
  | zero => intro i val hi; omega
  | succ n ih =>
    intro i val hi
    rw [digitLoop, left_eq v h]
    cases hd : v.rest.drop i with
    | nil =>
      have : ¬ ((i : Int) < (v.rest.length : Int)) := by
        have := congrArg List.length hd
        simp at this
        omega
      simp [this, digitRun, pure, Except.pure]
    | cons c cs =>
      have hlt : (i : Int) < (v.rest.length : Int) := by
        have := congrArg List.length hd
        simp at this
        omega
      have hnext := drop_succ_of_drop _ _ _ _ hd
      rw [if_pos hlt, peekAt_drop v i c cs hd]
      by_cases hc : isDigit c = true
      · have hlen : (v.rest.drop (i + 1)).length < n := by
          rw [hnext]; rw [hd] at hi; simp at hi; omega
        simp only [bind, Except.bind, hc, if_true]
        rw [ih (i + 1) _ hlen, hnext]
        simp [digitRun, hc]
        omega
      · simp [bind, Except.bind, hc, digitRun, pure, Except.pure]

theorem getD_of_drop {α : Type} (l : List α) (i : Nat) (c d : α) (cs : List α)
    (h : l.drop i = c :: cs) : l.getD i d = c := by
  have h1 : l[i]? = some c := by
    have := List.getElem?_drop l i 0
    rw [h] at this
    simpa using this.symm
  simp [List.getD, h1]

theorem suffixLoop_eq (v : ApkVersion) (h : v.valid) (table : List (List UInt8)) :
    ∀ (fuel val i : Nat), (table.drop val).length < fuel →
      v.suffixLoop table fuel val i = .ok (suffixScan v.rest (table.drop val) val i) := by
  intro fuel
  induction fuel with
  | zero => intro val i hi; omega
  | succ n ih =>
    intro val i hi
    rw [suffixLoop, left_eq v h]
    cases hd : table.drop val with
    | nil =>
      have : ¬ (val < table.length) := by
        have := congrArg List.length hd
        simp at this
        omega
      simp [this, suffixScan, pure, Except.pure]
    | cons s ss =>
      have hlt : val < table.length := by
        have := congrArg List.length hd
        simp at this
        omega
      have hnext := drop_succ_of_drop _ _ _ _ hd
      have hget := getD_of_drop table val s [] ss hd
      have hlen : (table.drop (val + 1)).length < n := by
        rw [hnext]; rw [hd] at hi; simp at hi; omega
      rw [if_pos hlt, hget]
      simp only [suffixScan]
      by_cases hs : s.length ≤ v.rest.length
      · have hs1 : (s.length : Int) ≤ (v.rest.length : Int) := by omega
        rw [if_pos hs1, peekCount_eq v _ h hs]
        by_cases hp : v.rest.take s.length = s
        · simp [bind, Except.bind, hp, hs, pure, Except.pure]
        · simp only [bind, Except.bind, hp, if_false, hs, and_false]
          rw [ih _ _ hlen, hnext]
      · have hs1 : ¬ ((s.length : Int) ≤ (v.rest.length : Int)) := by omega
        rw [if_neg hs1]
        simp only [hs, false_and, if_false]
        rw [ih _ _ hlen, hnext]

theorem nextTokenScan_eq (v : ApkVersion) (cur : tokenType) (h : v.valid) :
    v.nextTokenScan cur = .ok ((scanL cur v.rest).1, v.advance (scanL cur v.rest).2) ∧
      (scanL cur v.rest).2 ≤ v.rest.length := by
  have hadv0 : v.advance 0 = v := by simp [advance]
  cases hr : v.rest with
  | nil =>
    have he : v.isEOF = true := by rw [isEOF_eq v h, hr]; simp
    simp [nextTokenScan, he, scanL, hadv0, pure, Except.pure]
  | cons c cs =>
    have he : v.isEOF = false := by rw [isEOF_eq v h, hr]; simp
    have hpk := peek_cons v c cs hr
    have hnx := next_cons v c cs hr
    have hv1 : (v.advance 1).valid := valid_advance v 1 h (by rw [hr]; simp)
    have hr1 : (v.advance 1).rest = cs := by rw [rest_advance, hr]; simp
    have hadv2 : (v.advance 1).advance 1 = v.advance 2 := by simp [advance]
    have e1 : ch '_' ≠ ch '.' := by decide
    have e2 : ch '-' ≠ ch '.' := by decide
    have e3 : ch '-' ≠ ch '_' := by decide
    by_cases hdot : c = ch '.'
    · have f1 : isLower c = false := by rw [hdot]; decide
      have f2 : isDigit c = false := by rw [hdot]; decide
      cases cur <;>
        simp [nextTokenScan, he, scanL, hpk, hnx, bind, Except.bind, pure, Except.pure,
          Functor.map, Except.map, f1, f2] <;> simp [hdot]
    · by_cases hus : c = ch '_'
      · have f1 : isLower c = false := by rw [hus]; decide
        have f2 : isDigit c = false := by rw [hus]; decide
        cases cur <;>
          simp [nextTokenScan, he, scanL, hpk, hnx, bind, Except.bind, pure, Except.pure,
            Functor.map, Except.map, f1, f2, hdot] <;> simp [hus]
      · by_cases hda : c = ch '-'
        · have f1 : isLower c = false := by rw [hda]; decide
          have f2 : isDigit c = false := by rw [hda]; decide
          cases hcs : cs with
          | nil =>
            have hl : ¬ ((v.advance 1).left > 0) := by
              rw [left_eq _ hv1, hr1, hcs]; simp
            cases cur <;>
              simp [nextTokenScan, he, scanL, hpk, hnx, bind, Except.bind, pure, Except.pure,
                Functor.map, Except.map, f1, f2, hdot, hus, hl]
          | cons d ds =>
            have hl : (v.advance 1).left > 0 := by
              rw [left_eq _ hv1, hr1, hcs]; simp
            have hpk1 := peek_cons (v.advance 1) d ds (by rw [hr1, hcs])
            have hnx1 := next_cons (v.advance 1) d ds (by rw [hr1, hcs])
            by_cases hd : d = ch 'r'
            · cases cur <;>
                simp [nextTokenScan, he, scanL, hpk, hnx, bind, Except.bind, pure, Except.pure,
                  Functor.map, Except.map, f1, f2, hdot, hus, hl, hpk1, hnx1, hadv2] <;>
                simp [hda, hd]
            · cases cur <;>
                simp [nextTokenScan, he, scanL, hpk, hnx, bind, Except.bind, pure, Except.pure,
                  Functor.map, Except.map, f1, f2, hdot, hus, hl, hpk1, hnx1, hadv2] <;>
                simp [hda, hd]
        · by_cases hL : isLower c = true <;> by_cases hD : isDigit c = true <;>
            cases cur <;>
              simp [nextTokenScan, he, scanL, hpk, hnx, bind, Except.bind, pure, Except.pure,
                Functor.map, Except.map, hdot, hus, hda, hL, hD, hadv0]

theorem nextToken_eq (v : ApkVersion) (cur : tokenType) (h : v.valid) :
    v.nextToken cur = .ok ((nextTokenL cur v.rest).1, v.advance (nextTokenL cur v.rest).2) ∧
      (nextTokenL cur v.rest).2 ≤ v.rest.length := by
  have := nextTokenScan_eq v cur h
  simp [nextToken, nextTokenL, this.1, this.2, bind, Except.bind, pure, Except.pure]

end ApkVersion

/-! ## Bounds on the bytes consumed -/

theorem zeroRun_le (r : List UInt8) : zeroRun r ≤ r.length := by
  induction r with
  | nil => simp [zeroRun]
  | cons c cs ih =>
    by_cases hc : c = ch '0'
    · simp [zeroRun, hc]; exact ih
    · simp [zeroRun, hc]

theorem digitRun_le (r : List UInt8) : ∀ val : Int, (digitRun r val).1 ≤ r.length := by
  induction r with
  | nil => intro val; simp [digitRun]
  | cons c cs ih =>
    intro val
    by_cases hc : isDigit c = true
    · simp [digitRun, hc]; exact ih _
    · simp [digitRun, hc]

theorem suffixScan_le (r : List UInt8) :
    ∀ (table : List (List UInt8)) (val i : Nat),
      (suffixScan r table val i).1 < val + table.length → (suffixScan r table val i).2 ≤ r.length := by
  intro table
  induction table with
  | nil => intro val i h; simp [suffixScan] at h
  | cons s ss ih =>
    intro val i h
    by_cases hs : s.length ≤ r.length ∧ r.take s.length = s
    · simp [suffixScan, hs]
    · simp only [suffixScan, hs, if_false] at h ⊢
      apply ih
      simp only [List.length_cons] at h
      omega

theorem switchL_le (cur : tokenType) (r : List UInt8) (hr : r ≠ [])
    (nt : tokenType) (i : Nat) (val : Int) (h : switchL cur r = some (nt, i, val)) :
    i ≤ r.length := by
  cases cur <;> simp only [switchL] at h
  · simp at h
  · split at h
    · simp only [Option.some.injEq, Prod.mk.injEq] at h
      rw [← h.2.1]; exact zeroRun_le r
    · simp only [Option.some.injEq, Prod.mk.injEq] at h
      rw [← h.2.1]; exact digitRun_le r 0
  · simp only [Option.some.injEq, Prod.mk.injEq] at h
    rw [← h.2.1]; exact digitRun_le r 0
  · simp only [Option.some.injEq, Prod.mk.injEq] at h
    rw [← h.2.1]
    cases r with
    | nil => exact absurd rfl hr
    | cons c cs => simp
  · split at h
    · rename_i hp
      simp only [Option.some.injEq, Prod.mk.injEq] at h
      rw [← h.2.1]
      exact suffixScan_le r preSuffixes 0 0 (by simpa using hp)
    · split at h
      · rename_i hq
        simp only [Option.some.injEq, Prod.mk.injEq] at h
        rw [← h.2.1]
        exact suffixScan_le r postSuffixes 0 _ (by simpa using hq)
      · simp at h
  · simp only [Option.some.injEq, Prod.mk.injEq] at h
    rw [← h.2.1]; exact digitRun_le r 0
  · simp only [Option.some.injEq, Prod.mk.injEq] at h
    rw [← h.2.1]; exact digitRun_le r 0
  · simp at h

theorem zeroRun_pos (r : List UInt8) (h : r.head? = some (ch '0')) : 1 ≤ zeroRun r := by
  cases r with
  | nil => simp at h
  | cons c cs =>
    simp only [List.head?_cons, Option.some.injEq] at h
    simp [zeroRun, h]

theorem suffixScan_pos (r : List UInt8) :
    ∀ (table : List (List UInt8)) (val i : Nat), (∀ s ∈ table, 1 ≤ s.length) →
      (suffixScan r table val i).1 < val + table.length → 1 ≤ (suffixScan r table val i).2 := by
  intro table
  induction table with
  | nil => intro val i _ h; simp [suffixScan] at h
  | cons s ss ih =>
    intro val i hall h
    by_cases hs : s.length ≤ r.length ∧ r.take s.length = s
    · simp only [suffixScan, hs, and_self, if_true]
      exact hall s (by simp)
    · simp only [suffixScan, hs, if_false] at h ⊢
      apply ih
      · intro t ht; exact hall t (by simp [ht])
      · simp only [List.length_cons] at h
        omega

theorem preSuffixes_pos : ∀ s ∈ preSuffixes, 1 ≤ s.length := by decide

theorem postSuffixes_pos : ∀ s ∈ postSuffixes, 1 ≤ s.length := by decide

/-- Only a digit run can be empty: when the `switch` of `getToken` consumes nothing, the
pending type was numeric and `nt` is still `tokenInvalid`. -/
theorem switchL_zero (cur : tokenType) (r : List UInt8) (nt : tokenType) (val : Int)
    (h : switchL cur r = some (nt, 0, val)) : numeric cur = true ∧ nt = tokenInvalid := by
  cases cur <;> simp only [switchL] at h
  · simp at h
  · split at h
    · rename_i h0
      have := zeroRun_pos r h0
      simp only [Option.some.injEq, Prod.mk.injEq] at h
      omega
    · simp only [Option.some.injEq, Prod.mk.injEq] at h
      exact ⟨by decide, h.1.symm⟩
  · simp only [Option.some.injEq, Prod.mk.injEq] at h
    exact ⟨by decide, h.1.symm⟩
  · simp at h
  · split at h
    · rename_i hp
      have := suffixScan_pos r preSuffixes 0 0 preSuffixes_pos (by simpa using hp)
      simp only [Option.some.injEq, Prod.mk.injEq] at h
      omega
    · split at h
      · rename_i hq
        have := suffixScan_pos r postSuffixes 0 _ postSuffixes_pos (by simpa using hq)
        simp only [Option.some.injEq, Prod.mk.injEq] at h
        omega
      · simp at h
  · simp only [Option.some.injEq, Prod.mk.injEq] at h
    exact ⟨by decide, h.1.symm⟩
  · simp only [Option.some.injEq, Prod.mk.injEq] at h
    exact ⟨by decide, h.1.symm⟩
  · simp at h

/-- After a numeric token, `nextToken` consumes a byte unless it announces a letter. -/
theorem nextTokenL_zero (cur : tokenType) (r : List UInt8) (hcur : numeric cur = true)
    (hr : r ≠ []) (h : (nextTokenL cur r).2 = 0) :
    (nextTokenL cur r).1 = tokenLetter ∨ (nextTokenL cur r).1 = tokenInvalid := by
  cases r with
  | nil => exact absurd rfl hr
  | cons c cs =>
    simp only [nextTokenL, scanL] at h ⊢
    by_cases h1 : (cur = tokenDigit ∨ cur = tokenDigitOrZero) ∧ isLower c = true
    · rw [if_pos h1]
      rcases h1.1 with h2 | h2 <;> rw [h2] <;> decide
    · rw [if_neg h1] at h
      by_cases h2 : cur = tokenLetter ∧ isDigit c = true
      · rw [h2.1] at hcur; exact absurd hcur (by decide)
      · rw [if_neg h2] at h
        by_cases h3 : cur = tokenSuffix ∧ isDigit c = true
        · rw [h3.1] at hcur; exact absurd hcur (by decide)
        · rw [if_neg h3] at h
          exfalso
          split at h
          · simp at h
          · split at h
            · simp at h
            · split at h
              · split at h
                · split at h <;> simp at h
                · simp at h
              · simp at h

theorem measure_le (t : tokenType) (r : List UInt8) : measure t r ≤ 2 * r.length + 2 := by
  unfold measure
  split
  · omega
  · split <;> omega

/-- Every call of `getToken` with a non-terminal pending type decreases the measure. -/
theorem getTokenL_progress (cur : tokenType) (r : List UInt8) (hcur : terminal cur = false) :
    measure (getTokenL cur r).1 (r.drop (getTokenL cur r).2.2) < measure cur r := by
  have hm : ∀ (t : tokenType) (x : List UInt8), terminal t = true → measure t x < measure cur r := by
    intro t x ht
    simp only [measure, ht, hcur, if_true]
    simp
  by_cases hr : r = []
  · apply hm; simp [getTokenL, hr, terminal]
  · simp only [getTokenL, hr, if_false]
    cases hs : switchL cur r with
    | none => apply hm; simp [terminal]
    | some x =>
      obtain ⟨nt, i, val⟩ := x
      simp only
      by_cases hdrop : r.drop i = []
      · rw [if_pos hdrop]; apply hm; simp [terminal]
      · rw [if_neg hdrop]
        by_cases hi : i = 0
        · subst hi
          have hz := switchL_zero cur r nt val hs
          simp only [hz.2, if_true, List.drop_zero, Nat.zero_add]
          by_cases hn : (nextTokenL cur r).2 = 0
          · rcases nextTokenL_zero cur r hz.1 hr hn with h1 | h1
            · rw [h1, hn]
              simp only [measure, hcur, hz.1, List.drop_zero]
              simp [terminal, numeric]
            · apply hm; rw [h1]; decide
          · have := measure_le (nextTokenL cur r).1 (r.drop (nextTokenL cur r).2)
            have hl : r.length ≠ 0 := by
              intro h0; exact hr (List.length_eq_zero.mp h0)
            have hmc : measure cur r = 2 * r.length + 2 := by
              simp only [measure, hcur, hz.1]
              simp
            simp only [List.length_drop] at this
            omega
        · have hl : r.length ≠ 0 := by
            intro h0; exact hr (List.length_eq_zero.mp h0)
          have hmc : 2 * r.length + 1 ≤ measure cur r := by
            simp only [measure, hcur]
            simp
          split
          · have := measure_le (nextTokenL cur (r.drop i)).1
              (r.drop (i + (nextTokenL cur (r.drop i)).2))
            simp only [List.length_drop] at this
            dsimp only
            omega
          · have := measure_le nt (r.drop i)
            simp only [List.length_drop] at this
            dsimp only
            omega

/-! ## Key sequences -/

theorem measure_terminal (t : tokenType) (r : List UInt8) (h : terminal t = true) :
    measure t r = 0 := by
  simp [measure, h]

theorem measure_pos (t : tokenType) (r : List UInt8) (h : terminal t = false) :
    1 ≤ measure t r := by
  simp only [measure, h]
  simp

theorem keysFuel_stable : ∀ (f g : Nat) (t : tokenType) (v : Int) (r : List UInt8),
    measure t r ≤ f → measure t r ≤ g → keysFuel f t v r = keysFuel g t v r := by
  intro f
  induction f with
  | zero =>
    intro g t v r hf _
    have ht : terminal t = true := by
      by_contra hc
      have := measure_pos t r (by simpa using hc)
      omega
    cases g with
    | zero => rfl
    | succ g => simp [keysFuel, ht]
  | succ f ih =>
    intro g t v r hf hg
    by_cases ht : terminal t = true
    · cases g with
      | zero => simp [keysFuel, ht]
      | succ g => simp [keysFuel, ht]
    · have ht1 : terminal t = false := by simpa using ht
      have hp := getTokenL_progress t r ht1
      cases g with
      | zero =>
        have := measure_pos t r ht1
        omega
      | succ g =>
        simp only [keysFuel, ht1]
        rw [ih g _ _ _ (by omega) (by omega)]

theorem keys_eq (t : tokenType) (v : Int) (r : List UInt8) :
    keys t v r = v :: key t r ::
      if terminal t then []
      else keys (getTokenL t r).1 (getTokenL t r).2.1 (r.drop (getTokenL t r).2.2) := by
  by_cases ht : terminal t = true
  · simp [keys, measure_terminal t r ht, keysFuel, ht]
  · have ht1 : terminal t = false := by simpa using ht
    have hp := getTokenL_progress t r ht1
    have h1 := measure_pos t r ht1
    obtain ⟨m, hm⟩ : ∃ m, measure t r = m + 1 := ⟨measure t r - 1, by omega⟩
    simp only [keys, hm, keysFuel, ht1]
    rw [keysFuel_stable m _ _ _ _ (by omega) (Nat.le_refl _)]

theorem Verdict.cons (a : Int) {r : Nat} {x y : List Int} (h : Verdict r x y) :
    Verdict r (a :: x) (a :: y) := by
  rcases h with ⟨h1, h2⟩ | ⟨h1, h2⟩ | ⟨h1, h2⟩
  · exact Or.inl ⟨h1, List.Lex.cons h2⟩
  · exact Or.inr (Or.inl ⟨h1, by rw [h2]⟩)
  · exact Or.inr (Or.inr ⟨h1, List.Lex.cons h2⟩)

theorem Verdict.less_of_lt {a b : Int} (h : a < b) (x y : List Int) :
    Verdict ApkVersionLess (a :: x) (b :: y) :=
  Or.inl ⟨rfl, List.Lex.rel h⟩

theorem Verdict.greater_of_lt {a b : Int} (h : b < a) (x y : List Int) :
    Verdict ApkVersionGreater (a :: x) (b :: y) :=
  Or.inr (Or.inr ⟨rfl, List.Lex.rel h⟩)

theorem lex_irrefl (x : List Int) : ¬ List.Lex (· < ·) x x := by
  intro h
  exact (List.Lex.isAsymm (· < ·)).asymm x x h h

theorem lex_asymm {x y : List Int} (h : List.Lex (· < ·) x y) : ¬ List.Lex (· < ·) y x :=
  (List.Lex.isAsymm (· < ·)).asymm x y h

theorem lex_trans {x y z : List Int} (h1 : List.Lex (· < ·) x y) (h2 : List.Lex (· < ·) y z) :
    List.Lex (· < ·) x z :=
  IsTrans.trans x y z h1 h2

theorem Verdict.eq_less {r : Nat} {x y : List Int} (h : Verdict r x y)
    (hl : List.Lex (· < ·) x y) : r = ApkVersionLess := by
  rcases h with ⟨h1, _⟩ | ⟨_, h2⟩ | ⟨_, h2⟩
  · exact h1
  · rw [h2] at hl; exact absurd hl (lex_irrefl y)
  · exact absurd hl (lex_asymm h2)

theorem Verdict.eq_greater {r : Nat} {x y : List Int} (h : Verdict r x y)
    (hl : List.Lex (· < ·) y x) : r = ApkVersionGreater := by
  rcases h with ⟨_, h2⟩ | ⟨_, h2⟩ | ⟨h1, _⟩
  · exact absurd hl (lex_asymm h2)
  · rw [h2] at hl; exact absurd hl (lex_irrefl y)
  · exact h1

namespace ApkVersion

theorem getTokenSwitch_eq (v : ApkVersion) (cur : tokenType) (h : v.valid)
    (c : UInt8) (cs : List UInt8) (hr : v.rest = c :: cs) :
    v.getTokenSwitch cur = .ok (switchL cur v.rest) := by
  have hz := zeroLoop_eq v h (v.version.length + 1) 0
    (by simp only [List.drop_zero, rest_length]; omega)
  have hd := digitLoop_eq v h (v.version.length + 1) 0 0
    (by simp only [List.drop_zero, rest_length]; omega)
  have hp := fun i => suffixLoop_eq v h preSuffixes (preSuffixes.length + 1) 0 i (by simp)
  have hq := fun i => suffixLoop_eq v h postSuffixes (postSuffixes.length + 1) 0 i (by simp)
  simp only [List.drop_zero, Nat.zero_add] at hz hd hp hq
  have hpeek := peek_cons v c cs hr
  cases cur
  · simp [getTokenSwitch, switchL, pure, Except.pure]
  · by_cases hc : c = ch '0'
    · simp [getTokenSwitch, switchL, hpeek, hz, hc, bind, Except.bind, pure, Except.pure]
      simp [hr, hc]
    · simp [getTokenSwitch, switchL, hpeek, hd, hc, bind, Except.bind, pure, Except.pure]
      simp [hr, hc]
  · simp [getTokenSwitch, switchL, hd, bind, Except.bind, pure, Except.pure]
  · simp [getTokenSwitch, switchL, hpeek, bind, Except.bind, pure, Except.pure]
    simp [hr]
  · simp only [getTokenSwitch, switchL, hp, hq, bind, Except.bind, pure, Except.pure]
    by_cases h1 : (suffixScan v.rest preSuffixes 0 0).1 < preSuffixes.length
    · simp [h1]
    · simp only [h1, if_false]
      by_cases h2 : (suffixScan v.rest postSuffixes 0 (suffixScan v.rest preSuffixes 0 0).2).1
          < postSuffixes.length
      · simp [h2]
      · simp [h2]
  · simp [getTokenSwitch, switchL, hd, bind, Except.bind, pure, Except.pure]
  · simp [getTokenSwitch, switchL, hd, bind, Except.bind, pure, Except.pure]
  · simp [getTokenSwitch, switchL, pure, Except.pure]

/-- On a valid cursor `getToken` does not fail: it returns the token computed by `getTokenL`
from the unread bytes and moves the cursor by the number of bytes `getTokenL` consumes. -/
theorem getToken_eq (v : ApkVersion) (cur : tokenType) (h : v.valid) :
    v.getToken cur = .ok (((getTokenL cur v.rest).1, (getTokenL cur v.rest).2.1),
        v.advance (getTokenL cur v.rest).2.2) ∧
      (getTokenL cur v.rest).2.2 ≤ v.rest.length := by
  have hadv0 : v.advance 0 = v := by simp [advance]
  cases hr : v.rest with
  | nil =>
    have he : v.isEOF = true := by rw [isEOF_eq v h, hr]; simp
    simp [getToken, he, getTokenL, hadv0, pure, Except.pure]
  | cons c cs =>
    have he : v.isEOF = false := by rw [isEOF_eq v h, hr]; simp
    have hsw := getTokenSwitch_eq v cur h c cs hr
    rw [hr] at hsw
    have hne : (c :: cs) ≠ [] := by simp
    cases hs : switchL cur (c :: cs) with
    | none =>
      simp [getToken, he, getTokenL, hsw, hs, hadv0, bind, Except.bind, pure, Except.pure]
    | some x =>
      obtain ⟨nt, i, val⟩ := x
      have hi : i ≤ v.rest.length := by
        rw [hr]; exact switchL_le cur (c :: cs) hne nt i val hs
      have hsk := skip_eq v i h hi
      have hv1 := valid_advance v i h hi
      have hr1 : (v.advance i).rest = (c :: cs).drop i := by rw [rest_advance, hr]
      have he1 := isEOF_eq _ hv1
      rw [hr1] at he1
      have hnt := nextToken_eq (v.advance i) cur hv1
      rw [hr1] at hnt
      have hadd : ∀ n, (v.advance i).advance n = v.advance (i + n) := by
        intro n; simp [advance, Nat.add_assoc]
      have hdl : ((c :: cs).drop i).length = (c :: cs).length - i := by simp
      rw [hr] at hi
      by_cases hdrop : (c :: cs).drop i = []
      · simp [getToken, he, getTokenL, hsw, hs, hsk, he1, hdrop, bind, Except.bind, pure,
          Except.pure]
        simpa using hi
      · by_cases hinv : nt = tokenInvalid
        · simp only [getToken, he, getTokenL, hsw, hs, hsk, he1, hdrop, hinv, hnt.1, hadd, bind,
            Except.bind, pure, Except.pure]
          have h2 := hnt.2
          simp only [List.length_drop, List.length_cons] at h2 hi ⊢
          simp
          omega
        · simp [getToken, he, getTokenL, hsw, hs, hsk, he1, hdrop, hinv, bind, Except.bind, pure,
            Except.pure]
          simpa using hi

end ApkVersion

/-! ## `CompareVersions` is the lexicographic order of the key sequences -/

theorem toInt_injective : ∀ (t u : tokenType), t.toInt = u.toInt → t = u := by
  intro t u; cases t <;> cases u <;> simp [tokenType.toInt]

theorem toInt_bounds (t : tokenType) : -1 ≤ t.toInt ∧ t.toInt ≤ 6 := by
  cases t <;> simp [tokenType.toInt]

theorem key_pre (t : tokenType) (r : List UInt8)
    (h : t = tokenSuffix ∧ (getTokenL tokenSuffix r).2.1 < 0) : key t r = -7 := by
  simp only [key, if_pos h]

theorem key_other (t : tokenType) (r : List UInt8)
    (h : ¬ (t = tokenSuffix ∧ (getTokenL tokenSuffix r).2.1 < 0)) : key t r = -t.toInt := by
  simp only [key, if_neg h]

theorem compareTail_spec (s : LoopState) (ha : s.a.valid) (hb : s.b.valid)
    (hc : ¬ (s.aty = s.bty ∧ s.aty ≠ tokenEnd ∧ s.aty ≠ tokenInvalid ∧ s.aval = s.bval)) :
    ∃ r a1 b1, compareTail s = .ok (r, a1, b1) ∧
      Verdict r (keys s.aty s.aval s.a.rest) (keys s.bty s.bval s.b.rest) := by
  rw [keys_eq s.aty, keys_eq s.bty]
  by_cases hlt : s.aval < s.bval
  · exact ⟨ApkVersionLess, s.a, s.b, by simp [compareTail, hlt, pure, Except.pure],
      Verdict.less_of_lt hlt _ _⟩
  by_cases hgt : s.aval > s.bval
  · exact ⟨ApkVersionGreater, s.a, s.b, by simp [compareTail, hlt, hgt, pure, Except.pure],
      Verdict.greater_of_lt hgt _ _⟩
  have hv : s.aval = s.bval := by omega
  by_cases hty : s.aty = s.bty
  · have hterm : terminal s.aty = true := by
      by_contra hn
      apply hc
      refine ⟨hty, ?_, ?_, hv⟩
      · intro h; rw [h] at hn; exact hn (by decide)
      · intro h; rw [h] at hn; exact hn (by decide)
    have hns : s.aty ≠ tokenSuffix := by
      intro h; rw [h] at hterm; exact absurd hterm (by decide)
    refine ⟨ApkVersionEqual, s.a, s.b, by simp [compareTail, hlt, hgt, hty, pure, Except.pure],
      Or.inr (Or.inl ⟨rfl, ?_⟩)⟩
    rw [← hty, hv, hterm, key_other _ _ (fun h => hns h.1), key_other _ _ (fun h => hns h.1)]
    simp
  · have hga := (ApkVersion.getToken_eq s.a tokenSuffix ha).1
    have hgb := (ApkVersion.getToken_eq s.b tokenSuffix hb).1
    rw [hv]
    by_cases hA : s.aty = tokenSuffix ∧ (getTokenL tokenSuffix s.a.rest).2.1 < 0
    · have hkb : key s.bty s.b.rest = -s.bty.toInt :=
        key_other _ _ (fun h => hty (hA.1.trans h.1.symm))
      have hbd := toInt_bounds s.bty
      refine ⟨ApkVersionLess, s.a.advance (getTokenL tokenSuffix s.a.rest).2.2, s.b, ?_,
        Verdict.cons _ (Verdict.less_of_lt ?_ _ _)⟩
      · have hty2 : ¬ (tokenSuffix = s.bty) := fun h => hty (hA.1.trans h)
        simp only [compareTail, hlt, hgt, hty, hty2, if_false, hA.1, hga, hA.2, bind,
          Except.bind, pure, Except.pure, Functor.map, Except.map, if_true, and_self]
      · rw [key_pre _ _ hA, hkb]; omega
    · have hka := key_other _ _ hA
      by_cases hB : s.bty = tokenSuffix ∧ (getTokenL tokenSuffix s.b.rest).2.1 < 0
      · have hbd := toInt_bounds s.aty
        have hnsa : s.aty ≠ tokenSuffix := fun h => hty (h.trans hB.1.symm)
        refine ⟨ApkVersionGreater, s.a, s.b.advance (getTokenL tokenSuffix s.b.rest).2.2, ?_,
          Verdict.cons _ (Verdict.greater_of_lt ?_ _ _)⟩
        · simp only [compareTail, hlt, hgt, hty, if_false, hnsa, hB.1, hgb, hB.2, bind,
            Except.bind, pure, Except.pure, Functor.map, Except.map, if_true, and_self,
            false_and]
        · rw [key_pre _ _ hB, hka]; omega
      · have hkb := key_other _ _ hB
        have hne : s.aty.toInt ≠ s.bty.toInt := fun h => hty (toInt_injective _ _ h)
        have hok : ∃ a1 b1, compareTail s =
            .ok (if s.aty.toInt > s.bty.toInt then ApkVersionLess else ApkVersionGreater,
              a1, b1) := by
          by_cases hsa : s.aty = tokenSuffix
          · have hva : ¬ (getTokenL tokenSuffix s.a.rest).2.1 < 0 := fun h => hA ⟨hsa, h⟩
            have hsb : s.bty ≠ tokenSuffix := fun h => hty (hsa.trans h.symm)
            have hty2 : ¬ (tokenSuffix = s.bty) := fun h => hty (hsa.trans h)
            refine ⟨s.a.advance (getTokenL tokenSuffix s.a.rest).2.2, s.b, ?_⟩
            simp only [compareTail, hlt, hgt, hty, hty2, if_false, hsa, hsb, hga, hva, bind,
              Except.bind, pure, Except.pure, Functor.map, Except.map, if_true, and_false,
              false_and]
            rw [hsa] at hne
            by_cases h3 : tokenSuffix.toInt > s.bty.toInt
            · simp only [h3, if_true]
            · have h4 : s.bty.toInt > tokenSuffix.toInt := by omega
              simp only [h3, h4, if_true, if_false]
          · by_cases hsb : s.bty = tokenSuffix
            · have hvb : ¬ (getTokenL tokenSuffix s.b.rest).2.1 < 0 := fun h => hB ⟨hsb, h⟩
              refine ⟨s.a, s.b.advance (getTokenL tokenSuffix s.b.rest).2.2, ?_⟩
              simp only [compareTail, hlt, hgt, hty, if_false, hsa, hsb, hgb, hvb, bind,
                Except.bind, pure, Except.pure, Functor.map, Except.map, if_true, and_false,
                false_and]
              rw [hsb] at hne
              by_cases h3 : s.aty.toInt > tokenSuffix.toInt
              · simp only [h3, if_true]
              · have h4 : tokenSuffix.toInt > s.aty.toInt := by omega
                simp only [h3, h4, if_true, if_false]
            · refine ⟨s.a, s.b, ?_⟩
              simp only [compareTail, hlt, hgt, hty, if_false, hsa, hsb, bind,
                Except.bind, pure, Except.pure, if_true, false_and]
              by_cases h3 : s.aty.toInt > s.bty.toInt
              · simp only [h3, if_true]
              · have h4 : s.bty.toInt > s.aty.toInt := by omega
                simp only [h3, h4, if_true, if_false]
        obtain ⟨a1, b1, hcmp⟩ := hok
        refine ⟨_, a1, b1, hcmp, ?_⟩
        by_cases h3 : s.aty.toInt > s.bty.toInt
        · rw [if_pos h3]
          exact Verdict.cons _ (Verdict.less_of_lt (by rw [hka, hkb]; omega) _ _)
        · rw [if_neg h3]
          exact Verdict.cons _ (Verdict.greater_of_lt (by rw [hka, hkb]; omega) _ _)

/-- The loop of `CompareVersions` followed by the rest of the function, started from any
loop state with valid cursors and given fuel beyond the measure of one of the two sides,
returns a verdict, and the verdict is the lexicographic order of the two key sequences. -/
theorem compareLoop_spec : ∀ (fuel : Nat) (s : LoopState), s.a.valid → s.b.valid →
    (measure s.aty s.a.rest < fuel ∨ measure s.bty s.b.rest < fuel) →
    ∃ r a1 b1, (compareLoop fuel s >>= compareTail) = .ok (r, a1, b1) ∧
      Verdict r (keys s.aty s.aval s.a.rest) (keys s.bty s.bval s.b.rest) := by
  intro fuel
  induction fuel with
  | zero => intro s _ _ h; omega
  | succ n ih =>
    intro s ha hb hf
    by_cases hc : s.aty = s.bty ∧ s.aty ≠ tokenEnd ∧ s.aty ≠ tokenInvalid ∧ s.aval = s.bval
    · have hga := ApkVersion.getToken_eq s.a s.aty ha
      have hgb := ApkVersion.getToken_eq s.b s.bty hb
      have hta : terminal s.aty = false := by
        have h1 := hc.2.1
        have h2 := hc.2.2.1
        cases h : s.aty <;> simp_all [terminal]
      have htb : terminal s.bty = false := by rw [← hc.1]; exact hta
      have hpa := getTokenL_progress s.aty s.a.rest hta
      have hpb := getTokenL_progress s.bty s.b.rest htb
      have hstep : compareLoop (n + 1) s =
          compareLoop n ⟨(getTokenL s.aty s.a.rest).1, (getTokenL s.aty s.a.rest).2.1,
            s.a.advance (getTokenL s.aty s.a.rest).2.2,
            (getTokenL s.bty s.b.rest).1, (getTokenL s.bty s.b.rest).2.1,
            s.b.advance (getTokenL s.bty s.b.rest).2.2⟩ := by
        rw [compareLoop, if_pos hc]
        simp only [hga.1, hgb.1, bind, Except.bind]
      obtain ⟨r, a1, b1, hr, hv⟩ := ih
        ⟨(getTokenL s.aty s.a.rest).1, (getTokenL s.aty s.a.rest).2.1,
            s.a.advance (getTokenL s.aty s.a.rest).2.2,
            (getTokenL s.bty s.b.rest).1, (getTokenL s.bty s.b.rest).2.1,
            s.b.advance (getTokenL s.bty s.b.rest).2.2⟩
        (ApkVersion.valid_advance s.a _ ha hga.2) (ApkVersion.valid_advance s.b _ hb hgb.2)
        (by
          simp only [ApkVersion.rest_advance]
          rcases hf with h | h
          · left; omega
          · right; omega)
      simp only [ApkVersion.rest_advance] at hv
      refine ⟨r, a1, b1, by rw [hstep]; exact hr, ?_⟩
      rw [keys_eq s.aty, keys_eq s.bty, hta, htb, hc.2.2.2]
      simp only [Bool.false_eq_true, if_false]
      apply Verdict.cons
      by_cases hk : key s.aty s.a.rest = key s.bty s.b.rest
      · rw [hk]; exact Verdict.cons _ hv
      · have hsa : s.aty = tokenSuffix := by
          by_contra hns
          apply hk
          rw [key_other _ _ (fun h => hns h.1), key_other _ _ (fun h => hns (hc.1.trans h.1)),
            hc.1]
        have hsb : s.bty = tokenSuffix := hc.1.symm.trans hsa
        rw [keys_eq (getTokenL s.aty s.a.rest).1, keys_eq (getTokenL s.bty s.b.rest).1] at hv
        rw [hsa] at hv
        rw [hsb] at hv
        by_cases hA : (getTokenL tokenSuffix s.a.rest).2.1 < 0
        · have hB : ¬ (getTokenL tokenSuffix s.b.rest).2.1 < 0 := by
            intro hB
            apply hk
            rw [key_pre _ _ ⟨hsa, hA⟩, key_pre _ _ ⟨hsb, hB⟩]
          have hrl := hv.eq_less (List.Lex.rel (by omega))
          rw [hrl, key_pre _ _ ⟨hsa, hA⟩, key_other _ _ (fun h => hB h.2), hsb]
          exact Verdict.less_of_lt (by decide) _ _
        · have hB : (getTokenL tokenSuffix s.b.rest).2.1 < 0 := by
            by_contra hB
            apply hk
            rw [key_other _ _ (fun h => hA h.2), key_other _ _ (fun h => hB h.2), hc.1]
          have hrl := hv.eq_greater (List.Lex.rel (by omega))
          rw [hrl, key_pre _ _ ⟨hsb, hB⟩, key_other _ _ (fun h => hA h.2), hsa]
          exact Verdict.greater_of_lt (by decide) _ _
    · have hstep : compareLoop (n + 1) s = .ok s := by
        rw [compareLoop, if_neg hc]; rfl
      rw [hstep]
      exact compareTail_spec s ha hb hc

/-- The verdict of a comparison of two fresh handles, for every fuel beyond
`2 * min(len A, len B) + 2`. -/
theorem compareFresh_spec (fuel : Nat) (A B : List UInt8)
    (hf : 2 * min A.length B.length + 3 ≤ fuel) :
    ∃ r, compareFresh fuel A B = .ok r ∧
      Verdict r (keys tokenDigit 0 A) (keys tokenDigit 0 B) := by
  have hva : (NewVersion A).valid := by simp [NewVersion, ApkVersion.valid]
  have hvb : (NewVersion B).valid := by simp [NewVersion, ApkVersion.valid]
  have hra : (NewVersion A).rest = A := by simp [NewVersion, ApkVersion.rest]
  have hrb : (NewVersion B).rest = B := by simp [NewVersion, ApkVersion.rest]
  have hma := measure_le tokenDigit A
  have hmb := measure_le tokenDigit B
  obtain ⟨r, a1, b1, hr, hv⟩ := compareLoop_spec fuel
    ⟨tokenDigit, 0, NewVersion A, tokenDigit, 0, NewVersion B⟩ hva hvb
    (by
      simp only [hra, hrb]
      rcases Nat.le_total A.length B.length with h | h
      · left; rw [Nat.min_eq_left h] at hf; omega
      · right; rw [Nat.min_eq_right h] at hf; omega)
  simp only [hra, hrb] at hv
  refine ⟨r, ?_, hv⟩
  simp only [bind, Except.bind] at hr
  simp only [compareFresh, CompareVersions, bind, Except.bind, Functor.map, Except.map, pure,
    Except.pure]
  cases hl : compareLoop fuel ⟨tokenDigit, 0, NewVersion A, tokenDigit, 0, NewVersion B⟩ with
  | error e => rw [hl] at hr; simp at hr
  | ok s1 =>
    rw [hl] at hr
    have hr2 : compareTail s1 = .ok (r, a1, b1) := hr
    simp only [hr2]

theorem Verdict.lex_of_less {x y : List Int} (h : Verdict ApkVersionLess x y) :
    List.Lex (· < ·) x y := by
  rcases h with ⟨_, h2⟩ | ⟨h1, _⟩ | ⟨h1, _⟩
  · exact h2
  · exact absurd h1 (by decide)
  · exact absurd h1 (by decide)

theorem Verdict.lex_of_greater {x y : List Int} (h : Verdict ApkVersionGreater x y) :
    List.Lex (· < ·) y x := by
  rcases h with ⟨h1, _⟩ | ⟨h1, _⟩ | ⟨_, h2⟩
  · exact absurd h1 (by decide)
  · exact absurd h1 (by decide)
  · exact h2

/-- A comparison of two fresh handles returns `ApkVersionLess` as soon as the key sequence
of the first string is lexicographically below that of the second. -/
theorem compareFresh_less (fuel : Nat) (A B : List UInt8)
    (hf : 2 * min A.length B.length + 3 ≤ fuel)
    (h : List.Lex (· < ·) (keys tokenDigit 0 A) (keys tokenDigit 0 B)) :
    compareFresh fuel A B = .ok ApkVersionLess := by
  obtain ⟨r, hr, hv⟩ := compareFresh_spec fuel A B hf
  rw [hr, hv.eq_less h]

/-! ## The claims -/

/-- C1. For all strings `A` and `B`, `CompareVersions(NewVersion(A), NewVersion(B))`
terminates without a panic: with fuel for `2 * min(len A, len B) + 3` loop iterations the
run ends in `.ok r`, so no index or slice went out of range and `skip` did not panic, and
`r` is one of `ApkVersionLess` (2), `ApkVersionEqual` (1), `ApkVersionGreater` (4), which
are three different numbers. -/
theorem C1_compare_total (fuel : Nat) (A B : List UInt8)
    (hf : 2 * min A.length B.length + 3 ≤ fuel) :
    ∃ r, compareFresh fuel A B = .ok r ∧
      (r = ApkVersionLess ∨ r = ApkVersionEqual ∨ r = ApkVersionGreater) ∧
      ApkVersionLess = 2 ∧ ApkVersionEqual = 1 ∧ ApkVersionGreater = 4 := by
  obtain ⟨r, hr, hv⟩ := compareFresh_spec fuel A B hf
  refine ⟨r, hr, ?_, rfl, rfl, rfl⟩
  rcases hv with ⟨h, _⟩ | ⟨h, _⟩ | ⟨h, _⟩
  · exact Or.inl h
  · exact Or.inr (Or.inl h)
  · exact Or.inr (Or.inr h)

theorem C1_compare_total_witness :
    2 * min (bytes "1.0-r1").length (bytes "1_x").length + 3 ≤ 9 ∧
      ∃ r, compareFresh 9 (bytes "1.0-r1") (bytes "1_x") = .ok r ∧
        (r = ApkVersionLess ∨ r = ApkVersionEqual ∨ r = ApkVersionGreater) ∧
        ApkVersionLess = 2 ∧ ApkVersionEqual = 1 ∧ ApkVersionGreater = 4 :=
  ⟨by decide, C1_compare_total 9 (bytes "1.0-r1") (bytes "1_x") (by decide)⟩

/-- C2. Antisymmetry: for all strings `A` and `B`, each call on fresh handles and with
enough fuel, `CompareVersions(A, B) = ApkVersionLess` if and only if
`CompareVersions(B, A) = ApkVersionGreater`. -/
theorem C2_antisymmetry (f1 f2 : Nat) (A B : List UInt8)
    (h1 : 2 * min A.length B.length + 3 ≤ f1) (h2 : 2 * min A.length B.length + 3 ≤ f2) :
    compareFresh f1 A B = .ok ApkVersionLess ↔ compareFresh f2 B A = .ok ApkVersionGreater := by
  obtain ⟨r, hr, hv⟩ := compareFresh_spec f1 A B h1
  obtain ⟨q, hq, hw⟩ := compareFresh_spec f2 B A (by rw [Nat.min_comm]; exact h2)
  rw [hr, hq]
  constructor
  · intro h
    have hrl : r = ApkVersionLess := by injection h
    rw [hrl] at hv
    rw [hw.eq_greater hv.lex_of_less]
  · intro h
    have hqg : q = ApkVersionGreater := by injection h
    rw [hqg] at hw
    rw [hv.eq_less hw.lex_of_greater]

theorem C2_antisymmetry_witness :
    2 * min (bytes "1.0").length (bytes "1.00").length + 3 ≤ 9 ∧
      2 * min (bytes "1.0").length (bytes "1.00").length + 3 ≤ 12 ∧
      (compareFresh 9 (bytes "1.0") (bytes "1.00") = .ok ApkVersionLess ↔
        compareFresh 12 (bytes "1.00") (bytes "1.0") = .ok ApkVersionGreater) :=
  ⟨by decide, by decide, C2_antisymmetry 9 12 (bytes "1.0") (bytes "1.00") (by decide) (by decide)⟩

/-- C3. Reflexivity: for every string `A`, the empty string and strings outside the version
grammar included, `CompareVersions(NewVersion(A), NewVersion(A))` on two fresh handles
returns `ApkVersionEqual`. -/
theorem C3_reflexivity (fuel : Nat) (A : List UInt8) (hf : 2 * A.length + 3 ≤ fuel) :
    compareFresh fuel A A = .ok ApkVersionEqual := by
  obtain ⟨r, hr, hv⟩ := compareFresh_spec fuel A A (by rw [Nat.min_self]; exact hf)
  rw [hr]
  rcases hv with ⟨_, h⟩ | ⟨h, _⟩ | ⟨_, h⟩
  · exact absurd h (lex_irrefl _)
  · rw [h]
  · exact absurd h (lex_irrefl _)

theorem C3_reflexivity_witness :
    2 * (bytes "1..x_?").length + 3 ≤ 15 ∧
      compareFresh 15 (bytes "1..x_?") (bytes "1..x_?") = .ok ApkVersionEqual :=
  ⟨by decide, C3_reflexivity 15 (bytes "1..x_?") (by decide)⟩

/-- C4. Transitivity: for all strings `A`, `B`, `C`, well-formed or not, compared on fresh
handles with enough fuel, if `CompareVersions(A, B) = ApkVersionLess` and
`CompareVersions(B, C) = ApkVersionLess` then `CompareVersions(A, C) = ApkVersionLess`. -/
theorem C4_transitivity (f1 f2 f3 : Nat) (A B C : List UInt8)
    (h1 : 2 * min A.length B.length + 3 ≤ f1) (h2 : 2 * min B.length C.length + 3 ≤ f2)
    (h3 : 2 * min A.length C.length + 3 ≤ f3)
    (hab : compareFresh f1 A B = .ok ApkVersionLess)
    (hbc : compareFresh f2 B C = .ok ApkVersionLess) :
    compareFresh f3 A C = .ok ApkVersionLess := by
  obtain ⟨r, hr, hv⟩ := compareFresh_spec f1 A B h1
  obtain ⟨q, hq, hw⟩ := compareFresh_spec f2 B C h2
  rw [hr] at hab
  rw [hq] at hbc
  have hrl : r = ApkVersionLess := by injection hab
  have hql : q = ApkVersionLess := by injection hbc
  rw [hrl] at hv
  rw [hql] at hw
  exact compareFresh_less f3 A C h3 (lex_trans hv.lex_of_less hw.lex_of_less)

theorem C4_transitivity_witness :
    compareFresh 5 (bytes "1_alpha") (bytes "1") = .ok ApkVersionLess ∧
      compareFresh 5 (bytes "1") (bytes "1.1?") = .ok ApkVersionLess ∧
      compareFresh 11 (bytes "1_alpha") (bytes "1.1?") = .ok ApkVersionLess :=
  ⟨by decide, by decide,
    C4_transitivity 5 5 11 (bytes "1_alpha") (bytes "1") (bytes "1.1?")
      (by decide) (by decide) (by decide) (by decide) (by decide)⟩

/-- C5. Null handling: `CompareVersions(nil, nil)` is `ApkVersionEqual`; when exactly one
operand is nil the result is `ApkVersionEqual|ApkVersionGreater|ApkVersionLess`, which is 7,
whatever the present handle holds; the present handle is returned as it was, cursor
included; and `AlpineVersionLessThan` is then false. No loop runs, so this holds for every
fuel. -/
theorem C5_null_handling (fuel : Nat) (v : ApkVersion) :
    CompareVersions fuel none none = .ok (ApkVersionEqual, none, none) ∧
      CompareVersions fuel none (some v) = .ok (7, none, some v) ∧
      CompareVersions fuel (some v) none = .ok (7, some v, none) ∧
      ApkVersionEqual ||| ApkVersionGreater ||| ApkVersionLess = 7 ∧
      AlpineVersionLessThan fuel none (some v) = .ok false ∧
      AlpineVersionLessThan fuel (some v) none = .ok false :=
  ⟨rfl, rfl, rfl, rfl, rfl, rfl⟩

/-! ## Tokens of a digit run -/

theorem digitRun_append (d w : List UInt8) (hd : ∀ x ∈ d, isDigit x = true)
    (hw : ∀ x, w.head? = some x → isDigit x = false) :
    ∀ acc : Int, digitRun (d ++ w) acc = (d.length, (digitRun d acc).2) := by
  induction d with
  | nil =>
    intro acc
    cases w with
    | nil => simp [digitRun]
    | cons x xs =>
      have := hw x (by simp)
      simp [digitRun, this]
  | cons c cs ih =>
    intro acc
    have hc : isDigit c = true := hd c (by simp)
    have := ih (fun x hx => hd x (by simp [hx])) (wrapInt (wrapInt (acc * 10) + ((c - ch '0').toNat : Int)))
    simp [digitRun, hc, this]

theorem zeroRun_append (d w : List UInt8) (hw : w.head? ≠ some (ch '0')) :
    zeroRun (d ++ w) = zeroRun d := by
  induction d with
  | nil =>
    cases w with
    | nil => rfl
    | cons x xs =>
      have : x ≠ ch '0' := by intro h; apply hw; simp [h]
      simp [zeroRun, this]
  | cons c cs ih =>
    by_cases hc : c = ch '0'
    · simp [zeroRun, hc, ih]
    · simp [zeroRun, hc]

theorem zeroRun_replicate (k : Nat) : zeroRun (List.replicate k (ch '0')) = k := by
  induction k with
  | zero => rfl
  | succ n ih => simp [List.replicate_succ, zeroRun, ih]

/-- A digit run read by `getToken` with a pending type that reads plain digit runs, when the
run is followed by a byte that is not a digit. -/
theorem getTokenL_digits (t : tokenType) (d w : List UInt8)
    (ht : t = tokenDigit ∨ t = tokenSuffixNo ∨ t = tokenRevisionNo ∨
      (t = tokenDigitOrZero ∧ (d ++ w).head? ≠ some (ch '0')))
    (hd : ∀ x ∈ d, isDigit x = true) (hw : ∀ x, w.head? = some x → isDigit x = false)
    (hne : w ≠ []) :
    getTokenL t (d ++ w) =
      ((nextTokenL t w).1, (digitRun d 0).2, d.length + (nextTokenL t w).2) := by
  have hdr := digitRun_append d w hd hw 0
  have hne2 : d ++ w ≠ [] := by simp [hne]
  have hsw : switchL t (d ++ w) = some (tokenInvalid, d.length, (digitRun d 0).2) := by
    rcases ht with h | h | h | ⟨h, h0⟩
    · simp [h, switchL, hdr]
    · simp [h, switchL, hdr]
    · simp [h, switchL, hdr]
    · simp only [h, switchL, if_neg h0, hdr]
  simp [getTokenL, hne2, hsw, hne]

theorem getTokenL_digits_end (t : tokenType) (d : List UInt8)
    (ht : t = tokenDigit ∨ t = tokenSuffixNo ∨ t = tokenRevisionNo ∨
      (t = tokenDigitOrZero ∧ d.head? ≠ some (ch '0')))
    (hd : ∀ x ∈ d, isDigit x = true) (hne : d ≠ []) :
    getTokenL t d = (tokenEnd, (digitRun d 0).2, d.length) := by
  have hdr0 := digitRun_append d [] hd (by simp) 0
  simp only [List.append_nil] at hdr0
  have hdr : (digitRun d 0).1 = d.length := congrArg Prod.fst hdr0
  have hsw : switchL t d = some (tokenInvalid, d.length, (digitRun d 0).2) := by
    rcases ht with h | h | h | ⟨h, h0⟩
    · simp [h, switchL, hdr]
    · simp [h, switchL, hdr]
    · simp [h, switchL, hdr]
    · simp only [h, switchL, if_neg h0, hdr]
  simp [getTokenL, hne, hsw]

/-- A run of zeros read with the pending type `tokenDigitOrZero`, when bytes remain. -/
theorem getTokenL_zeros (r : List UInt8) (h0 : r.head? = some (ch '0'))
    (hne : r.drop (zeroRun r) ≠ []) :
    getTokenL tokenDigitOrZero r = (tokenDigit, -(zeroRun r : Int), zeroRun r) := by
  have hr : r ≠ [] := by intro h; rw [h] at h0; simp at h0
  simp [getTokenL, hr, switchL, h0, hne]

theorem getTokenL_zeros_end (r : List UInt8) (h0 : r.head? = some (ch '0'))
    (hne : r.drop (zeroRun r) = []) :
    getTokenL tokenDigitOrZero r = (tokenEnd, -(zeroRun r : Int), zeroRun r) := by
  have hr : r ≠ [] := by intro h; rw [h] at h0; simp at h0
  simp [getTokenL, hr, switchL, h0, hne]

/-! ## Key sequences of a dotted numeric prefix -/

theorem isDigitRun_ne_nil (c : List UInt8) (h : isDigitRun c = true) : c ≠ [] := by
  intro hc
  rw [hc] at h
  exact absurd h (by decide)

theorem isDigitRun_digits (c : List UInt8) (h : isDigitRun c = true) :
    ∀ x ∈ c, isDigit x = true := by
  simp only [isDigitRun, Bool.and_eq_true, List.all_eq_true] at h
  exact h.2

theorem isDigitRun_length (c : List UInt8) (h : isDigitRun c = true) : c.length ≤ 18 := by
  simp only [isDigitRun, Bool.and_eq_true, decide_eq_true_eq] at h
  exact h.1.2

theorem key_numeric (t : tokenType) (r : List UInt8) (ht : t ≠ tokenSuffix) :
    key t r = -t.toInt :=
  key_other t r (fun h => ht h.1)

theorem isSep_dot : IsSep (ch '.') tokenDigitOrZero := by
  refine ⟨by decide, by decide, ?_⟩
  intro t w ht
  have f1 : isLower (ch '.') = false := by decide
  have f2 : isDigit (ch '.') = false := by decide
  rcases ht with h | h <;> rw [h] <;> simp [nextTokenL, scanL, f1, f2] <;> decide

theorem isSep_underscore : IsSep (ch '_') tokenSuffix := by
  refine ⟨by decide, by decide, ?_⟩
  intro t w ht
  have f1 : isLower (ch '_') = false := by decide
  have f2 : isDigit (ch '_') = false := by decide
  have f3 : ch '_' ≠ ch '.' := by decide
  rcases ht with h | h <;> rw [h] <;> simp [nextTokenL, scanL, f1, f2, f3] <;> decide

theorem head_ne_zero_of_not_digit (s : UInt8) (w : List UInt8) (hs : isDigit s = false) :
    (s :: w).head? ≠ some (ch '0') := by
  intro h
  simp only [List.head?_cons, Option.some.injEq] at h
  rw [h] at hs
  exact absurd hs (by decide)

/-- A possibly empty digit run followed by a separator, read with a pending type that reads
a plain digit run. -/
theorem keys_digits (s : UInt8) (T : tokenType) (hs : IsSep s T) (t : tokenType)
    (d w : List UInt8) (v : Int) (hd : ∀ x ∈ d, isDigit x = true)
    (ht : t = tokenDigit ∨ (t = tokenDigitOrZero ∧ (d ++ s :: w).head? ≠ some (ch '0'))) :
    keys t v (d ++ s :: w) = v :: -t.toInt :: keys T (digitRun d 0).2 w := by
  have htt : t = tokenDigit ∨ t = tokenDigitOrZero := by
    rcases ht with h | h
    · exact Or.inl h
    · exact Or.inr h.1
  have hns : t ≠ tokenSuffix := by
    rcases htt with h | h <;> rw [h] <;> decide
  have hterm : terminal t = false := by
    rcases htt with h | h <;> rw [h] <;> decide
  have hg := getTokenL_digits t d (s :: w)
    (by
      rcases ht with h | h
      · exact Or.inl h
      · exact Or.inr (Or.inr (Or.inr h)))
    hd
    (by
      intro x hx
      simp only [List.head?_cons, Option.some.injEq] at hx
      rw [← hx]; exact hs.1)
    (by simp)
  rw [hs.2.2 t w htt] at hg
  rw [keys_eq, key_numeric t _ hns, hterm, hg]
  simp

/-- One component of a dotted version followed by a separator: the keys it contributes do
not depend on what follows the separator. -/
theorem keys_component (s : UInt8) (T : tokenType) (hs : IsSep s T) (c : List UInt8)
    (hc : isDigitRun c = true) (t : tokenType) (ht : t = tokenDigit ∨ t = tokenDigitOrZero) :
    ∃ (pre : List Int) (v1 : Int), ∀ (v : Int) (w : List UInt8),
      keys t v (c ++ s :: w) = v :: pre ++ keys T v1 w := by
  have hne := isDigitRun_ne_nil c hc
  have hd := isDigitRun_digits c hc
  by_cases hz : t = tokenDigitOrZero ∧ c.head? = some (ch '0')
  · have hzr : ∀ w, zeroRun (c ++ s :: w) = zeroRun c := fun w =>
      zeroRun_append c (s :: w) (head_ne_zero_of_not_digit s w hs.1)
    have hle := zeroRun_le c
    refine ⟨[0, -(zeroRun c : Int), -1], (digitRun (c.drop (zeroRun c)) 0).2, ?_⟩
    intro v w
    have hhead : (c ++ s :: w).head? = some (ch '0') := by
      cases c with
      | nil => exact absurd rfl hne
      | cons x xs => simpa using hz.2
    have hdrop : (c ++ s :: w).drop (zeroRun c) = c.drop (zeroRun c) ++ s :: w := by
      rw [List.drop_append_of_le_length hle]
    have hg := getTokenL_zeros (c ++ s :: w) hhead (by rw [hzr, hdrop]; simp)
    rw [hzr] at hg
    rw [hz.1, keys_eq, key_numeric _ _ (by decide), hg]
    simp only [hdrop]
    rw [keys_digits s T hs tokenDigit (c.drop (zeroRun c)) w _
      (fun x hx => hd x (List.mem_of_mem_drop hx)) (Or.inl rfl)]
    simp [terminal, tokenType.toInt]
  · refine ⟨[-t.toInt], (digitRun c 0).2, ?_⟩
    intro v w
    rw [keys_digits s T hs t c w v hd]
    · simp
    · rcases ht with h | h
      · exact Or.inl h
      · right
        refine ⟨h, ?_⟩
        intro h0
        apply hz
        refine ⟨h, ?_⟩
        cases c with
        | nil => exact absurd rfl hne
        | cons x xs => simpa using h0

/-- The keys contributed by a dotted numeric prefix followed by a separator do not depend on
what follows the separator. -/
theorem keys_dotted (s : UInt8) (T : tokenType) (hs : IsSep s T) :
    ∀ (comps : List (List UInt8)), comps ≠ [] → (∀ c ∈ comps, isDigitRun c = true) →
      ∀ (t : tokenType), (t = tokenDigit ∨ t = tokenDigitOrZero) →
        ∃ (pre : List Int) (v1 : Int), ∀ (v : Int) (w : List UInt8),
          keys t v (dotted comps ++ s :: w) = v :: pre ++ keys T v1 w := by
  intro comps
  induction comps with
  | nil => intro h; exact absurd rfl h
  | cons c cs ih =>
    intro _ hall t ht
    cases cs with
    | nil =>
      simpa [dotted] using keys_component s T hs c (hall c (by simp)) t ht
    | cons c2 cs2 =>
      obtain ⟨pre1, v1, h1⟩ :=
        keys_component (ch '.') tokenDigitOrZero isSep_dot c (hall c (by simp)) t ht
      obtain ⟨pre2, v2, h2⟩ := ih (by simp) (fun x hx => hall x (by simp [hx]))
        tokenDigitOrZero (Or.inr rfl)
      refine ⟨pre1 ++ v1 :: pre2, v2, ?_⟩
      intro v w
      have : dotted (c :: c2 :: cs2) ++ s :: w = c ++ ch '.' :: (dotted (c2 :: cs2) ++ s :: w) := by
        simp [dotted]
      rw [this, h1, h2]
      simp

theorem lex_common_prefix (a : Int) (pre x y : List Int) (h : List.Lex (· < ·) x y) :
    List.Lex (· < ·) (a :: pre ++ x) (a :: pre ++ y) :=
  List.Lex.cons (List.Lex.append_left _ h pre)

/-! ## Digit runs without overflow -/

theorem digit_sub (c : UInt8) (hc : isDigit c = true) :
    ((c - ch '0').toNat : Int) = (c.toNat : Int) - 48 ∧ 48 ≤ c.toNat ∧ c.toNat ≤ 57 := by
  have h48 : (ch '0').toNat = 48 := by decide
  have h57 : (ch '9').toNat = 57 := by decide
  simp only [isDigit, h48, h57, Bool.and_eq_true, decide_eq_true_eq] at hc
  refine ⟨?_, hc.1, hc.2⟩
  have hlt : c.toNat < 256 := c.val.isLt
  have : (c - ch '0').toNat = (256 - 48 + c.toNat) % 256 := by
    show (c.val - (ch '0').val).val = _
    rw [Fin.sub_def]
    rfl
  rw [this]
  omega

theorem wrapInt_of_bounds (x : Int) (h0 : 0 ≤ x) (h1 : x < 2 ^ 63) : wrapInt x = x := by
  unfold wrapInt
  omega

theorem digitRun_foldl (d : List UInt8) (hd : ∀ x ∈ d, isDigit x = true) :
    ∀ a : Nat, (a + 1) * 10 ^ d.length ≤ 2 ^ 63 →
      (digitRun d (a : Int)).2 =
        ((d.foldl (fun acc c => acc * 10 + (c.toNat - (ch '0').toNat)) a : Nat) : Int) := by
  induction d with
  | nil => intro a _; simp [digitRun]
  | cons c cs ih =>
    intro a ha
    have hc : isDigit c = true := hd c (by simp)
    obtain ⟨hsub, h48, h57⟩ := digit_sub c hc
    have h0 : (ch '0').toNat = 48 := by decide
    have hpos : 1 ≤ 10 ^ cs.length := Nat.one_le_pow _ _ (by decide)
    have hstep : (a + 1) * 10 ^ (c :: cs).length = ((a + 1) * 10) * 10 ^ cs.length := by
      simp only [List.length_cons, Nat.pow_succ]
      ring
    rw [hstep] at ha
    have ha10 : (a + 1) * 10 ≤ 2 ^ 63 :=
      Nat.le_trans (Nat.le_mul_of_pos_right _ hpos) ha
    have hnext : (a * 10 + (c.toNat - 48) + 1) * 10 ^ cs.length ≤ 2 ^ 63 :=
      Nat.le_trans (Nat.mul_le_mul_right _ (by omega)) ha
    have hw1 : wrapInt ((a : Int) * 10) = (a : Int) * 10 :=
      wrapInt_of_bounds _ (by omega) (by omega)
    have hw2 : wrapInt ((a : Int) * 10 + ((c - ch '0').toNat : Int)) =
        ((a * 10 + (c.toNat - 48) : Nat) : Int) := by
      rw [hsub, wrapInt_of_bounds _ (by omega) (by omega)]
      omega
    simp only [digitRun, hc, if_true, hw1, hw2, List.foldl_cons, h0]
    exact ih (fun x hx => hd x (by simp [hx])) _ hnext

theorem digitRun_decVal (d : List UInt8) (hd : isDigitRun d = true) :
    (digitRun d 0).2 = (decVal d : Int) := by
  have hlen := isDigitRun_length d hd
  have h := digitRun_foldl d (isDigitRun_digits d hd) 0 (by
    have : 10 ^ d.length ≤ 10 ^ 18 := Nat.pow_le_pow_right (by decide) hlen
    have h18 : (10 : Nat) ^ 18 ≤ 2 ^ 63 := by norm_num
    omega)
  simpa [decVal] using h

theorem compareFresh_greater (fuel : Nat) (A B : List UInt8)
    (hf : 2 * min A.length B.length + 3 ≤ fuel)
    (h : List.Lex (· < ·) (keys tokenDigit 0 B) (keys tokenDigit 0 A)) :
    compareFresh fuel A B = .ok ApkVersionGreater := by
  obtain ⟨r, hr, hv⟩ := compareFresh_spec fuel A B hf
  rw [hr, hv.eq_greater h]

/-- Two strings that share a dotted numeric prefix and the separator after it compare as
the key sequences of what follows the separator. -/
theorem compareFresh_less_of_tails (s : UInt8) (T : tokenType) (hs : IsSep s T)
    (comps : List (List UInt8)) (hne : comps ≠ []) (hwf : ∀ c ∈ comps, isDigitRun c = true)
    (x y : List UInt8) (fuel : Nat)
    (hf : 2 * min (dotted comps ++ s :: x).length (dotted comps ++ s :: y).length + 3 ≤ fuel)
    (h : ∀ v : Int, List.Lex (· < ·) (keys T v x) (keys T v y)) :
    compareFresh fuel (dotted comps ++ s :: x) (dotted comps ++ s :: y) = .ok ApkVersionLess := by
  obtain ⟨pre, v1, hk⟩ := keys_dotted s T hs comps hne hwf tokenDigit (Or.inl rfl)
  apply compareFresh_less fuel _ _ hf
  rw [hk 0 x, hk 0 y]
  exact lex_common_prefix _ _ _ _ (h v1)

theorem keys_zeros_end (v : Int) (k : Nat) (hk : 1 ≤ k) :
    keys tokenDigitOrZero v (List.replicate k (ch '0')) = [v, 0, -(k : Int), -6] := by
  have hz := zeroRun_replicate k
  have hhead : (List.replicate k (ch '0')).head? = some (ch '0') := by
    cases k with
    | zero => omega
    | succ n => simp [List.replicate_succ]
  have hg := getTokenL_zeros_end (List.replicate k (ch '0')) hhead (by rw [hz]; simp)
  rw [hz] at hg
  rw [keys_eq, key_numeric _ _ (by decide), hg]
  dsimp only
  rw [keys_eq, key_numeric tokenEnd _ (by decide)]
  simp [terminal, tokenType.toInt]

theorem keys_number_end (v : Int) (x : List UInt8) (hx : isDigitRun x = true)
    (h0 : x.head? ≠ some (ch '0')) :
    keys tokenDigitOrZero v x = [v, 0, (decVal x : Int), -6] := by
  have hg := getTokenL_digits_end tokenDigitOrZero x (Or.inr (Or.inr (Or.inr ⟨rfl, h0⟩)))
    (isDigitRun_digits x hx) (isDigitRun_ne_nil x hx)
  rw [digitRun_decVal x hx] at hg
  rw [keys_eq, key_numeric _ _ (by decide), hg]
  dsimp only
  rw [keys_eq, key_numeric tokenEnd _ (by decide)]
  simp [terminal, tokenType.toInt]

theorem keys_suffix (v : Int) (w : List UInt8) : keys tokenSuffix v w = v :: suffixKeys w := by
  rw [keys_eq]
  simp [suffixKeys, terminal]

set_option maxRecDepth 100000 in
theorem suffixKeys_ordered : ∀ (i j : Fin 9), i < j →
    List.Lex (· < ·) (suffixKeys (suffixWords.getD i.val [])) (suffixKeys (suffixWords.getD j.val [])) := by
  decide

/-! ## Claims on concrete and well-formed versions -/

/-- C6 (as stated, refuted). `CompareVersions(NewVersion("1.0"), NewVersion("1.00"))` is not
`ApkVersionLess`. -/
theorem C6_leading_zeros_counterexample :
    compareFresh 9 (bytes "1.0") (bytes "1.00") ≠ .ok ApkVersionLess := by
  decide

/-- C6 (amended). `CompareVersions(NewVersion("1.0"), NewVersion("1.00"))` is
`ApkVersionGreater`: the string with more leading zeros in the component is the lesser. -/
theorem C6_leading_zeros_amended (fuel : Nat) (hf : 9 ≤ fuel) :
    compareFresh fuel (bytes "1.0") (bytes "1.00") = .ok ApkVersionGreater := by
  apply compareFresh_greater fuel _ _ (by simpa [bytes] using hf)
  decide

theorem C6_leading_zeros_amended_witness :
    9 ≤ 9 ∧ compareFresh 9 (bytes "1.0") (bytes "1.00") = .ok ApkVersionGreater :=
  ⟨by decide, C6_leading_zeros_amended 9 (by decide)⟩

/-- C7. More leading zeros compare as less: for every dotted numeric prefix `P` (non-empty
digit runs of at most 18 digits joined by single dots) and all `1 ≤ j < k`,
`CompareVersions(P.0^k, P.0^j) = ApkVersionLess`. -/
theorem C7_more_zeros_less (fuel : Nat) (comps : List (List UInt8)) (j k : Nat)
    (hne : comps ≠ []) (hwf : ∀ c ∈ comps, isDigitRun c = true) (hj : 1 ≤ j) (hjk : j < k)
    (hf : 2 * min (dotted comps ++ ch '.' :: List.replicate k (ch '0')).length
        (dotted comps ++ ch '.' :: List.replicate j (ch '0')).length + 3 ≤ fuel) :
    compareFresh fuel (dotted comps ++ ch '.' :: List.replicate k (ch '0'))
      (dotted comps ++ ch '.' :: List.replicate j (ch '0')) = .ok ApkVersionLess := by
  apply compareFresh_less_of_tails (ch '.') tokenDigitOrZero isSep_dot comps hne hwf _ _ fuel hf
  intro v
  rw [keys_zeros_end v k (by omega), keys_zeros_end v j hj]
  exact List.Lex.cons (List.Lex.cons (List.Lex.rel (by omega)))

theorem C7_more_zeros_less_witness :
    [bytes "1"] ≠ [] ∧ (∀ c ∈ [bytes "1"], isDigitRun c = true) ∧ 1 ≤ 1 ∧ 1 < 2 ∧
      2 * min (dotted [bytes "1"] ++ ch '.' :: List.replicate 2 (ch '0')).length
        (dotted [bytes "1"] ++ ch '.' :: List.replicate 1 (ch '0')).length + 3 ≤ 9 ∧
      compareFresh 9 (dotted [bytes "1"] ++ ch '.' :: List.replicate 2 (ch '0'))
        (dotted [bytes "1"] ++ ch '.' :: List.replicate 1 (ch '0')) = .ok ApkVersionLess :=
  ⟨by decide, by decide, by decide, by decide, by decide,
    C7_more_zeros_less 9 [bytes "1"] 1 2 (by decide) (by decide) (by decide) (by decide)
      (by decide)⟩

/-- C8 (the code at the failing input). For `V = "1.0"` and the pre-release word `alpha`,
`CompareVersions(NewVersion("1.0_alpha"), NewVersion("1.0"))` returns `ApkVersionGreater`:
after the zero run of the component `0` the pending type of the first string is
`tokenDigit`, not `tokenSuffix`, so the pre-release test of `CompareVersions` is skipped. -/
theorem C8_prerelease_after_zero_component :
    compareFresh 9 (bytes "1.0_alpha") (bytes "1.0") = .ok ApkVersionGreater := by
  decide

/-- C9. Components compare by number, not by character: for every dotted numeric prefix `P`
and all digit strings `x`, `y` of 1 to 18 digits that do not start with `'0'` and whose decimal
values satisfy `x < y`, `CompareVersions(P.x, P.y) = ApkVersionLess`. -/
theorem C9_numeric_components (fuel : Nat) (comps : List (List UInt8)) (x y : List UInt8)
    (hne : comps ≠ []) (hwf : ∀ c ∈ comps, isDigitRun c = true)
    (hx : isDigitRun x = true) (hy : isDigitRun y = true)
    (hx0 : x.head? ≠ some (ch '0')) (hy0 : y.head? ≠ some (ch '0'))
    (hlt : decVal x < decVal y)
    (hf : 2 * min (dotted comps ++ ch '.' :: x).length
        (dotted comps ++ ch '.' :: y).length + 3 ≤ fuel) :
    compareFresh fuel (dotted comps ++ ch '.' :: x) (dotted comps ++ ch '.' :: y) =
      .ok ApkVersionLess := by
  apply compareFresh_less_of_tails (ch '.') tokenDigitOrZero isSep_dot comps hne hwf _ _ fuel hf
  intro v
  rw [keys_number_end v x hx hx0, keys_number_end v y hy hy0]
  exact List.Lex.cons (List.Lex.cons (List.Lex.rel (by omega)))

theorem C9_numeric_components_witness :
    [bytes "1"] ≠ [] ∧ (∀ c ∈ [bytes "1"], isDigitRun c = true) ∧
      isDigitRun (bytes "2") = true ∧ isDigitRun (bytes "10") = true ∧
      (bytes "2").head? ≠ some (ch '0') ∧ (bytes "10").head? ≠ some (ch '0') ∧
      decVal (bytes "2") < decVal (bytes "10") ∧
      2 * min (dotted [bytes "1"] ++ ch '.' :: bytes "2").length
        (dotted [bytes "1"] ++ ch '.' :: bytes "10").length + 3 ≤ 9 ∧
      compareFresh 9 (dotted [bytes "1"] ++ ch '.' :: bytes "2")
        (dotted [bytes "1"] ++ ch '.' :: bytes "10") = .ok ApkVersionLess :=
  ⟨by decide, by decide, by decide, by decide, by decide, by decide, by decide, by decide,
    C9_numeric_components 9 [bytes "1"] (bytes "2") (bytes "10") (by decide) (by decide)
      (by decide) (by decide) (by decide) (by decide) (by decide) (by decide)⟩

/-- C10. Suffix words order by their place in the list alpha, beta, pre, rc, cvs, svn, git,
hg, p: for every dotted numeric version `V` and all positions `i < j` in that list,
`CompareVersions(V_w_i, V_w_j) = ApkVersionLess`. -/
theorem C10_suffix_word_order (fuel : Nat) (comps : List (List UInt8)) (i j : Nat)
    (wi wj : List UInt8)
    (hne : comps ≠ []) (hwf : ∀ c ∈ comps, isDigitRun c = true)
    (hi : suffixWords[i]? = some wi) (hj : suffixWords[j]? = some wj) (hij : i < j)
    (hf : 2 * min (dotted comps ++ ch '_' :: wi).length
        (dotted comps ++ ch '_' :: wj).length + 3 ≤ fuel) :
    compareFresh fuel (dotted comps ++ ch '_' :: wi) (dotted comps ++ ch '_' :: wj) =
      .ok ApkVersionLess := by
  apply compareFresh_less_of_tails (ch '_') tokenSuffix isSep_underscore comps hne hwf _ _ fuel hf
  intro v
  have hj9 : j < 9 := by
    have := (List.getElem?_eq_some_iff.mp hj).1
    simpa [suffixWords, preSuffixes, postSuffixes] using this
  have hwi : suffixWords.getD i [] = wi := by simp [List.getD, hi]
  have hwj : suffixWords.getD j [] = wj := by simp [List.getD, hj]
  have := suffixKeys_ordered ⟨i, by omega⟩ ⟨j, hj9⟩ (by simpa using hij)
  simp only [hwi, hwj] at this
  rw [keys_suffix, keys_suffix]
  exact List.Lex.cons this

theorem C10_suffix_word_order_witness :
    [bytes "1", bytes "0"] ≠ [] ∧ (∀ c ∈ [bytes "1", bytes "0"], isDigitRun c = true) ∧
      suffixWords[2]? = some (bytes "pre") ∧ suffixWords[8]? = some (bytes "p") ∧ 2 < 8 ∧
      2 * min (dotted [bytes "1", bytes "0"] ++ ch '_' :: bytes "pre").length
        (dotted [bytes "1", bytes "0"] ++ ch '_' :: bytes "p").length + 3 ≤ 13 ∧
      compareFresh 13 (dotted [bytes "1", bytes "0"] ++ ch '_' :: bytes "pre")
        (dotted [bytes "1", bytes "0"] ++ ch '_' :: bytes "p") = .ok ApkVersionLess :=
  ⟨by decide, by decide, by decide, by decide, by decide, by decide,
    C10_suffix_word_order 13 [bytes "1", bytes "0"] 2 8 (bytes "pre") (bytes "p") (by decide)
      (by decide) (by decide) (by decide) (by decide) (by decide)⟩

/-! ## What follows a dotted numeric version -/

theorem clamp_digit (ret : tokenType) : clamp ret tokenDigit = ret := by
  cases ret <;> decide

theorem clamp_digitOrZero (ret : tokenType) : clamp ret tokenDigitOrZero = ret := by
  cases ret <;> decide

theorem scanL_doz_eq_digit (r : List UInt8) :
    scanL tokenDigitOrZero r = scanL tokenDigit r := by
  cases r with
  | nil => rfl
  | cons c cs => simp [scanL]

/-- After a digit run `nextToken` answers the same for the pending types `tokenDigitOrZero`
and `tokenDigit`. -/
theorem nextTokenL_doz_eq_digit (r : List UInt8) :
    nextTokenL tokenDigitOrZero r = nextTokenL tokenDigit r := by
  simp only [nextTokenL, clamp_digit, clamp_digitOrZero, scanL_doz_eq_digit]

theorem not_zero_of_not_digit (r : List UInt8) (hr : ∀ x, r.head? = some x → isDigit x = false) :
    r.head? ≠ some (ch '0') := by
  intro h
  exact absurd (hr _ h) (by decide)

/-- A possibly empty digit run followed by a byte that is not a digit, read with a pending
type that reads a plain digit run: the next state is the one `nextToken` announces. -/
theorem keys_digits_next (t : tokenType) (d r : List UInt8) (v : Int)
    (hd : ∀ x ∈ d, isDigit x = true) (hne : r ≠ [])
    (hr : ∀ x, r.head? = some x → isDigit x = false)
    (ht : t = tokenDigit ∨ (t = tokenDigitOrZero ∧ (d ++ r).head? ≠ some (ch '0'))) :
    keys t v (d ++ r) = v :: -t.toInt ::
      keys (nextTokenL tokenDigit r).1 (digitRun d 0).2 (r.drop (nextTokenL tokenDigit r).2) := by
  have htt : t = tokenDigit ∨ t = tokenDigitOrZero := by
    rcases ht with h | h
    · exact Or.inl h
    · exact Or.inr h.1
  have hns : t ≠ tokenSuffix := by
    rcases htt with h | h <;> rw [h] <;> decide
  have hterm : terminal t = false := by
    rcases htt with h | h <;> rw [h] <;> decide
  have hnt : nextTokenL t r = nextTokenL tokenDigit r := by
    rcases htt with h | h
    · rw [h]
    · rw [h]; exact nextTokenL_doz_eq_digit r
  have hg := getTokenL_digits t d r
    (by
      rcases ht with h | h
      · exact Or.inl h
      · exact Or.inr (Or.inr (Or.inr h)))
    hd hr hne
  rw [hnt] at hg
  rw [keys_eq, key_numeric t _ hns, hterm, hg]
  simp

theorem head_append_of_ne_nil (c r : List UInt8) (hne : c ≠ []) : (c ++ r).head? = c.head? := by
  cases c with
  | nil => exact absurd rfl hne
  | cons x xs => rfl

/-- One component followed by a byte that is not a digit: the keys it contributes do not
depend on what follows, and the next state is the one `nextToken` announces. -/
theorem keys_component_next (c : List UInt8) (hc : isDigitRun c = true) (t : tokenType)
    (ht : t = tokenDigit ∨ t = tokenDigitOrZero) :
    ∃ (pre : List Int) (v1 : Int), ∀ (v : Int) (r : List UInt8), r ≠ [] →
      (∀ x, r.head? = some x → isDigit x = false) →
      keys t v (c ++ r) = v :: pre ++
        keys (nextTokenL tokenDigit r).1 v1 (r.drop (nextTokenL tokenDigit r).2) := by
  have hne := isDigitRun_ne_nil c hc
  have hd := isDigitRun_digits c hc
  by_cases hz : t = tokenDigitOrZero ∧ c.head? = some (ch '0')
  · have hle := zeroRun_le c
    refine ⟨[0, -(zeroRun c : Int), -1], (digitRun (c.drop (zeroRun c)) 0).2, ?_⟩
    intro v r hrne hr
    have hzr : zeroRun (c ++ r) = zeroRun c := zeroRun_append c r (not_zero_of_not_digit r hr)
    have hhead : (c ++ r).head? = some (ch '0') := by
      rw [head_append_of_ne_nil c r hne]; exact hz.2
    have hdrop : (c ++ r).drop (zeroRun c) = c.drop (zeroRun c) ++ r := by
      rw [List.drop_append_of_le_length hle]
    have hg := getTokenL_zeros (c ++ r) hhead (by rw [hzr, hdrop]; simp [hrne])
    rw [hzr] at hg
    rw [hz.1, keys_eq, key_numeric _ _ (by decide), hg]
    simp only [hdrop]
    rw [keys_digits_next tokenDigit (c.drop (zeroRun c)) r _
      (fun x hx => hd x (List.mem_of_mem_drop hx)) hrne hr (Or.inl rfl)]
    simp [terminal, tokenType.toInt]
  · refine ⟨[-t.toInt], (digitRun c 0).2, ?_⟩
    intro v r hrne hr
    rw [keys_digits_next t c r v hd hrne hr]
    · simp
    · rcases ht with h | h
      · exact Or.inl h
      · right
        refine ⟨h, ?_⟩
        intro h0
        apply hz
        refine ⟨h, ?_⟩
        rw [head_append_of_ne_nil c r hne] at h0
        exact h0

/-- The keys contributed by a dotted numeric version followed by a byte that is not a digit
do not depend on what follows. -/
theorem keys_dotted_next :
    ∀ (comps : List (List UInt8)), comps ≠ [] → (∀ c ∈ comps, isDigitRun c = true) →
      ∀ (t : tokenType), (t = tokenDigit ∨ t = tokenDigitOrZero) →
        ∃ (pre : List Int) (v1 : Int), ∀ (v : Int) (r : List UInt8), r ≠ [] →
          (∀ x, r.head? = some x → isDigit x = false) →
          keys t v (dotted comps ++ r) = v :: pre ++
            keys (nextTokenL tokenDigit r).1 v1 (r.drop (nextTokenL tokenDigit r).2) := by
  intro comps
  induction comps with
  | nil => intro h; exact absurd rfl h
  | cons c cs ih =>
    intro _ hall t ht
    cases cs with
    | nil =>
      simpa [dotted] using keys_component_next c (hall c (by simp)) t ht
    | cons c2 cs2 =>
      obtain ⟨pre1, v1, h1⟩ :=
        keys_component (ch '.') tokenDigitOrZero isSep_dot c (hall c (by simp)) t ht
      obtain ⟨pre2, v2, h2⟩ := ih (by simp) (fun x hx => hall x (by simp [hx]))
        tokenDigitOrZero (Or.inr rfl)
      refine ⟨pre1 ++ v1 :: pre2, v2, ?_⟩
      intro v r hrne hr
      have : dotted (c :: c2 :: cs2) ++ r = c ++ ch '.' :: (dotted (c2 :: cs2) ++ r) := by
        simp [dotted]
      rw [this, h1, h2 v1 r hrne hr]
      simp

theorem keys_end (v : Int) (r : List UInt8) : keys tokenEnd v r = [v, -6] := by
  rw [keys_eq, key_numeric tokenEnd _ (by decide)]
  simp [terminal, tokenType.toInt]

/-- One component at the end of the string against the same component followed by a byte
that is not a digit: the two key sequences agree up to a value `v0`, after which the ended
string has the key `-6` of `tokenEnd` and the other string has either the key `-1` of
`tokenDigit` (the component is all zeros and is not the first) or the key of the state
`nextToken` announces. -/
theorem keys_component_end (c : List UInt8) (hc : isDigitRun c = true) (t : tokenType)
    (ht : t = tokenDigit ∨ t = tokenDigitOrZero) :
    ∃ (pre : List Int) (v0 : Int), (∀ v : Int, keys t v c = v :: pre ++ [v0, -6]) ∧
      ∀ (v : Int) (r : List UInt8), r ≠ [] → (∀ x, r.head? = some x → isDigit x = false) →
        ∃ (k : Int) (rest : List Int), keys t v (c ++ r) = v :: pre ++ v0 :: k :: rest ∧
          (k = -1 ∨
            k = key (nextTokenL tokenDigit r).1 (r.drop (nextTokenL tokenDigit r).2)) := by
  have hne := isDigitRun_ne_nil c hc
  have hd := isDigitRun_digits c hc
  by_cases hz : t = tokenDigitOrZero ∧ c.head? = some (ch '0')
  · have hle := zeroRun_le c
    have hcont : ∀ (v : Int) (r : List UInt8), r ≠ [] →
        (∀ x, r.head? = some x → isDigit x = false) →
        keys tokenDigitOrZero v (c ++ r) = v :: 0 :: -(zeroRun c : Int) :: -1 ::
          keys (nextTokenL tokenDigit r).1 (digitRun (c.drop (zeroRun c)) 0).2
            (r.drop (nextTokenL tokenDigit r).2) := by
      intro v r hrne hr
      have hzr : zeroRun (c ++ r) = zeroRun c := zeroRun_append c r (not_zero_of_not_digit r hr)
      have hhead : (c ++ r).head? = some (ch '0') := by
        rw [head_append_of_ne_nil c r hne]; exact hz.2
      have hdrop : (c ++ r).drop (zeroRun c) = c.drop (zeroRun c) ++ r := by
        rw [List.drop_append_of_le_length hle]
      have hg := getTokenL_zeros (c ++ r) hhead (by rw [hzr, hdrop]; simp [hrne])
      rw [hzr] at hg
      rw [keys_eq, key_numeric _ _ (by decide), hg]
      simp only [hdrop]
      rw [keys_digits_next tokenDigit (c.drop (zeroRun c)) r _
        (fun x hx => hd x (List.mem_of_mem_drop hx)) hrne hr (Or.inl rfl)]
      simp [terminal, tokenType.toInt]
    by_cases hall0 : c.drop (zeroRun c) = []
    · refine ⟨[0], -(zeroRun c : Int), ?_, ?_⟩
      · intro v
        have hg := getTokenL_zeros_end c hz.2 hall0
        rw [hz.1, keys_eq, key_numeric _ _ (by decide), hg]
        dsimp only
        rw [keys_end]
        simp [terminal, tokenType.toInt]
      · intro v r hrne hr
        have h := hcont v r hrne hr
        rw [← hz.1] at h
        exact ⟨-1, _, h, Or.inl rfl⟩
    · refine ⟨[0, -(zeroRun c : Int), -1], (digitRun (c.drop (zeroRun c)) 0).2, ?_, ?_⟩
      · intro v
        have hg := getTokenL_zeros c hz.2 hall0
        have hg2 := getTokenL_digits_end tokenDigit (c.drop (zeroRun c)) (Or.inl rfl)
          (fun x hx => hd x (List.mem_of_mem_drop hx)) hall0
        rw [hz.1, keys_eq, key_numeric _ _ (by decide), hg]
        dsimp only
        rw [keys_eq, key_numeric tokenDigit _ (by decide), hg2]
        dsimp only
        rw [keys_end]
        simp [terminal, tokenType.toInt]
      · intro v r hrne hr
        have h := hcont v r hrne hr
        rw [← hz.1, keys_eq (nextTokenL tokenDigit r).1] at h
        exact ⟨_, _, h, Or.inr rfl⟩
  · have htd : t = tokenDigit ∨ (t = tokenDigitOrZero ∧ c.head? ≠ some (ch '0')) := by
      rcases ht with h | h
      · exact Or.inl h
      · exact Or.inr ⟨h, fun h0 => hz ⟨h, h0⟩⟩
    have hns : t ≠ tokenSuffix := by
      rcases ht with h | h <;> rw [h] <;> decide
    have hterm : terminal t = false := by
      rcases ht with h | h <;> rw [h] <;> decide
    refine ⟨[-t.toInt], (digitRun c 0).2, ?_, ?_⟩
    · intro v
      have hg := getTokenL_digits_end t c
        (by
          rcases htd with h | h
          · exact Or.inl h
          · exact Or.inr (Or.inr (Or.inr h)))
        hd hne
      rw [keys_eq, key_numeric t _ hns, hterm, hg]
      dsimp only
      rw [keys_end]
      simp
    · intro v r hrne hr
      have h := keys_digits_next t c r v hd hrne hr
        (by
          rcases htd with h | h
          · exact Or.inl h
          · exact Or.inr ⟨h.1, by rw [head_append_of_ne_nil c r hne]; exact h.2⟩)
      rw [keys_eq (nextTokenL tokenDigit r).1] at h
      exact ⟨_, _, h, Or.inr rfl⟩

/-- A dotted numeric version at the end of the string against the same version followed by a
byte that is not a digit. -/
theorem keys_dotted_end :
    ∀ (comps : List (List UInt8)), comps ≠ [] → (∀ c ∈ comps, isDigitRun c = true) →
      ∀ (t : tokenType), (t = tokenDigit ∨ t = tokenDigitOrZero) →
        ∃ (pre : List Int) (v0 : Int),
          (∀ v : Int, keys t v (dotted comps) = v :: pre ++ [v0, -6]) ∧
          ∀ (v : Int) (r : List UInt8), r ≠ [] → (∀ x, r.head? = some x → isDigit x = false) →
            ∃ (k : Int) (rest : List Int),
              keys t v (dotted comps ++ r) = v :: pre ++ v0 :: k :: rest ∧
              (k = -1 ∨
                k = key (nextTokenL tokenDigit r).1 (r.drop (nextTokenL tokenDigit r).2)) := by
  intro comps
  induction comps with
  | nil => intro h; exact absurd rfl h
  | cons c cs ih =>
    intro _ hall t ht
    cases cs with
    | nil =>
      simpa [dotted] using keys_component_end c (hall c (by simp)) t ht
    | cons c2 cs2 =>
      obtain ⟨pre1, v1, h1⟩ :=
        keys_component (ch '.') tokenDigitOrZero isSep_dot c (hall c (by simp)) t ht
      obtain ⟨pre2, v0, hend, hcont⟩ := ih (by simp) (fun x hx => hall x (by simp [hx]))
        tokenDigitOrZero (Or.inr rfl)
      refine ⟨pre1 ++ v1 :: pre2, v0, ?_, ?_⟩
      · intro v
        have : dotted (c :: c2 :: cs2) = c ++ ch '.' :: dotted (c2 :: cs2) := by
          simp [dotted]
        rw [this, h1, hend]
        simp
      · intro v r hrne hr
        obtain ⟨k, rest, hk, hkk⟩ := hcont v1 r hrne hr
        refine ⟨k, rest, ?_, hkk⟩
        have : dotted (c :: c2 :: cs2) ++ r = c ++ ch '.' :: (dotted (c2 :: cs2) ++ r) := by
          simp [dotted]
        rw [this, h1, hk]
        simp

/-- A dotted numeric version is lexicographically below the same version followed by `r`
when the state after the version in `r` has a key above that of `tokenEnd`. -/
theorem lex_end_lt_cont (comps : List (List UInt8)) (hne : comps ≠ [])
    (hwf : ∀ c ∈ comps, isDigitRun c = true) (r : List UInt8) (hrne : r ≠ [])
    (hr : ∀ x, r.head? = some x → isDigit x = false)
    (hk : -6 < key (nextTokenL tokenDigit r).1 (r.drop (nextTokenL tokenDigit r).2)) :
    List.Lex (· < ·) (keys tokenDigit 0 (dotted comps))
      (keys tokenDigit 0 (dotted comps ++ r)) := by
  obtain ⟨pre, v0, hend, hcont⟩ := keys_dotted_end comps hne hwf tokenDigit (Or.inl rfl)
  obtain ⟨k, rest, hkeys, hkk⟩ := hcont 0 r hrne hr
  rw [hend 0, hkeys]
  apply lex_common_prefix
  apply List.Lex.cons
  apply List.Lex.rel
  rcases hkk with h | h
  · rw [h]; decide
  · rw [h]; exact hk

theorem nextTokenL_dot (w : List UInt8) :
    nextTokenL tokenDigit (ch '.' :: w) = (tokenDigitOrZero, 1) :=
  isSep_dot.2.2 tokenDigit w (Or.inl rfl)

theorem nextTokenL_underscore (w : List UInt8) :
    nextTokenL tokenDigit (ch '_' :: w) = (tokenSuffix, 1) :=
  isSep_underscore.2.2 tokenDigit w (Or.inl rfl)

theorem nextTokenL_revision (w : List UInt8) :
    nextTokenL tokenDigit (ch '-' :: ch 'r' :: w) = (tokenRevisionNo, 2) := by
  have f1 : isLower (ch '-') = false := by decide
  have f3 : ch '-' ≠ ch '.' := by decide
  have f4 : ch '-' ≠ ch '_' := by decide
  simp [nextTokenL, scanL, clamp_digit, f1, f3, f4]

theorem isDigit_of_isLower (x : UInt8) (hx : isLower x = true) : isDigit x = false := by
  have h1 : (ch 'a').toNat = 97 := by decide
  have h2 : (ch 'z').toNat = 122 := by decide
  have h3 : (ch '0').toNat = 48 := by decide
  have h4 : (ch '9').toNat = 57 := by decide
  simp only [isLower, h1, h2, Bool.and_eq_true, decide_eq_true_eq] at hx
  simp only [isDigit, h3, h4, Bool.and_eq_false_iff, decide_eq_false_iff_not]
  omega

theorem nextTokenL_letter (x : UInt8) (w : List UInt8) (hx : isLower x = true) :
    nextTokenL tokenDigit (x :: w) = (tokenLetter, 0) := by
  simp [nextTokenL, scanL, clamp_digit, hx]

theorem keys_revision_end (v : Int) (m : List UInt8) (hm : isDigitRun m = true) :
    keys tokenRevisionNo v m = [v, -5, (decVal m : Int), -6] := by
  have hg := getTokenL_digits_end tokenRevisionNo m (Or.inr (Or.inr (Or.inl rfl)))
    (isDigitRun_digits m hm) (isDigitRun_ne_nil m hm)
  rw [digitRun_decVal m hm] at hg
  rw [keys_eq, key_numeric _ _ (by decide), hg]
  dsimp only
  rw [keys_end]
  simp [terminal, tokenType.toInt]

theorem keys_letter_end (v : Int) (x : UInt8) :
    keys tokenLetter v [x] = [v, -2, (x.toNat : Int), -6] := by
  have hg : getTokenL tokenLetter [x] = (tokenEnd, (x.toNat : Int), 1) := by
    simp [getTokenL, switchL]
  rw [keys_eq, key_numeric _ _ (by decide), hg]
  dsimp only
  rw [keys_end]
  simp [terminal, tokenType.toInt]

theorem postSuffixes_nonneg :
    ∀ w ∈ postSuffixes, ¬ (getTokenL tokenSuffix w).2.1 < 0 := by
  decide

/-- Two strings that share a dotted numeric version and differ in what follows it, when
what follows does not start with a digit: they compare as the key sequences of the states
that `nextToken` announces after the version. -/
theorem compareFresh_less_of_next (comps : List (List UInt8)) (hne : comps ≠ [])
    (hwf : ∀ c ∈ comps, isDigitRun c = true) (x y : List UInt8) (hx : x ≠ []) (hy : y ≠ [])
    (hxd : ∀ c, x.head? = some c → isDigit c = false)
    (hyd : ∀ c, y.head? = some c → isDigit c = false) (fuel : Nat)
    (hf : 2 * min (dotted comps ++ x).length (dotted comps ++ y).length + 3 ≤ fuel)
    (h : ∀ v : Int, List.Lex (· < ·)
      (keys (nextTokenL tokenDigit x).1 v (x.drop (nextTokenL tokenDigit x).2))
      (keys (nextTokenL tokenDigit y).1 v (y.drop (nextTokenL tokenDigit y).2))) :
    compareFresh fuel (dotted comps ++ x) (dotted comps ++ y) = .ok ApkVersionLess := by
  obtain ⟨pre, v1, hk⟩ := keys_dotted_next comps hne hwf tokenDigit (Or.inl rfl)
  apply compareFresh_less fuel _ _ hf
  rw [hk 0 x hx hxd, hk 0 y hy hyd]
  exact lex_common_prefix _ _ _ _ (h v1)

/-! ## Claims on what follows a well-formed version -/

/-- C11. More trailing numeric content is greater: for every dotted numeric version `V` and
every digit string `n` of 1 to 18 digits, `CompareVersions(V, V.n) = ApkVersionLess`. -/
theorem C11_trailing_component (fuel : Nat) (comps : List (List UInt8)) (n : List UInt8)
    (hne : comps ≠ []) (hwf : ∀ c ∈ comps, isDigitRun c = true) (hn : isDigitRun n = true)
    (hf : 2 * min (dotted comps).length (dotted comps ++ ch '.' :: n).length + 3 ≤ fuel) :
    compareFresh fuel (dotted comps) (dotted comps ++ ch '.' :: n) = .ok ApkVersionLess := by
  have hn1 := isDigitRun_ne_nil n hn
  apply compareFresh_less fuel _ _ hf
  apply lex_end_lt_cont comps hne hwf (ch '.' :: n) (by simp)
  · intro x hx
    simp only [List.head?_cons, Option.some.injEq] at hx
    rw [← hx]; decide
  · rw [nextTokenL_dot, key_numeric _ _ (by decide)]
    decide

theorem C11_trailing_component_witness :
    [bytes "1", bytes "0"] ≠ [] ∧ (∀ c ∈ [bytes "1", bytes "0"], isDigitRun c = true) ∧
      isDigitRun (bytes "1") = true ∧
      2 * min (dotted [bytes "1", bytes "0"]).length
        (dotted [bytes "1", bytes "0"] ++ ch '.' :: bytes "1").length + 3 ≤ 9 ∧
      compareFresh 9 (dotted [bytes "1", bytes "0"])
        (dotted [bytes "1", bytes "0"] ++ ch '.' :: bytes "1") = .ok ApkVersionLess :=
  ⟨by decide, by decide, by decide, by decide,
    C11_trailing_component 9 [bytes "1", bytes "0"] (bytes "1") (by decide) (by decide)
      (by decide) (by decide)⟩

/-- C12. A post-release suffix sorts after the same version without it: for every dotted
numeric version `V` and every post-release word `w` (cvs, svn, git, hg, p),
`CompareVersions(V_w, V) = ApkVersionGreater`. -/
theorem C12_post_release_greater (fuel : Nat) (comps : List (List UInt8)) (w : List UInt8)
    (hne : comps ≠ []) (hwf : ∀ c ∈ comps, isDigitRun c = true) (hw : w ∈ postSuffixes)
    (hf : 2 * min (dotted comps ++ ch '_' :: w).length (dotted comps).length + 3 ≤ fuel) :
    compareFresh fuel (dotted comps ++ ch '_' :: w) (dotted comps) = .ok ApkVersionGreater := by
  apply compareFresh_greater fuel _ _ hf
  apply lex_end_lt_cont comps hne hwf (ch '_' :: w) (by simp)
  · intro x hx
    simp only [List.head?_cons, Option.some.injEq] at hx
    rw [← hx]; decide
  · rw [nextTokenL_underscore]
    have hk : key tokenSuffix w = -tokenSuffix.toInt :=
      key_other _ _ (fun h => postSuffixes_nonneg w hw h.2)
    simp only [List.drop_succ_cons, List.drop_zero]
    rw [hk]
    decide

theorem C12_post_release_greater_witness :
    [bytes "1", bytes "0"] ≠ [] ∧ (∀ c ∈ [bytes "1", bytes "0"], isDigitRun c = true) ∧
      bytes "git" ∈ postSuffixes ∧
      2 * min (dotted [bytes "1", bytes "0"] ++ ch '_' :: bytes "git").length
        (dotted [bytes "1", bytes "0"]).length + 3 ≤ 9 ∧
      compareFresh 9 (dotted [bytes "1", bytes "0"] ++ ch '_' :: bytes "git")
        (dotted [bytes "1", bytes "0"]) = .ok ApkVersionGreater :=
  ⟨by decide, by decide, by decide, by decide,
    C12_post_release_greater 9 [bytes "1", bytes "0"] (bytes "git") (by decide) (by decide)
      (by decide) (by decide)⟩

/-- C13. Revision numbers compare by number: for every dotted numeric version `V` and all
digit strings `m`, `n` of 1 to 18 digits whose decimal values satisfy `m < n`,
`CompareVersions(V-rm, V-rn) = ApkVersionLess`. -/
theorem C13_revision_numbers (fuel : Nat) (comps : List (List UInt8)) (m n : List UInt8)
    (hne : comps ≠ []) (hwf : ∀ c ∈ comps, isDigitRun c = true)
    (hm : isDigitRun m = true) (hn : isDigitRun n = true) (hlt : decVal m < decVal n)
    (hf : 2 * min (dotted comps ++ ch '-' :: ch 'r' :: m).length
        (dotted comps ++ ch '-' :: ch 'r' :: n).length + 3 ≤ fuel) :
    compareFresh fuel (dotted comps ++ ch '-' :: ch 'r' :: m)
      (dotted comps ++ ch '-' :: ch 'r' :: n) = .ok ApkVersionLess := by
  have hd : ∀ (w : List UInt8) (c : UInt8), (ch '-' :: ch 'r' :: w).head? = some c →
      isDigit c = false := by
    intro w c hc
    simp only [List.head?_cons, Option.some.injEq] at hc
    rw [← hc]; decide
  apply compareFresh_less_of_next comps hne hwf _ _ (by simp) (by simp) (hd m) (hd n) fuel hf
  intro v
  rw [nextTokenL_revision, nextTokenL_revision]
  simp only [List.drop_succ_cons, List.drop_zero]
  rw [keys_revision_end v m hm, keys_revision_end v n hn]
  exact List.Lex.cons (List.Lex.cons (List.Lex.rel (by omega)))

theorem C13_revision_numbers_witness :
    [bytes "1", bytes "0"] ≠ [] ∧ (∀ c ∈ [bytes "1", bytes "0"], isDigitRun c = true) ∧
      isDigitRun (bytes "1") = true ∧ isDigitRun (bytes "2") = true ∧
      decVal (bytes "1") < decVal (bytes "2") ∧
      2 * min (dotted [bytes "1", bytes "0"] ++ ch '-' :: ch 'r' :: bytes "1").length
        (dotted [bytes "1", bytes "0"] ++ ch '-' :: ch 'r' :: bytes "2").length + 3 ≤ 15 ∧
      compareFresh 15 (dotted [bytes "1", bytes "0"] ++ ch '-' :: ch 'r' :: bytes "1")
        (dotted [bytes "1", bytes "0"] ++ ch '-' :: ch 'r' :: bytes "2") = .ok ApkVersionLess :=
  ⟨by decide, by decide, by decide, by decide, by decide, by decide,
    C13_revision_numbers 15 [bytes "1", bytes "0"] (bytes "1") (bytes "2") (by decide)
      (by decide) (by decide) (by decide) (by decide) (by decide)⟩

/-- C14. Letter suffixes compare by character: for every dotted numeric version `V` and all
lowercase letters `x < y`, `CompareVersions(Vx, Vy) = ApkVersionLess`. -/
theorem C14_letter_suffix (fuel : Nat) (comps : List (List UInt8)) (x y : UInt8)
    (hne : comps ≠ []) (hwf : ∀ c ∈ comps, isDigitRun c = true)
    (hx : isLower x = true) (hy : isLower y = true) (hlt : x.toNat < y.toNat)
    (hf : 2 * min (dotted comps ++ [x]).length (dotted comps ++ [y]).length + 3 ≤ fuel) :
    compareFresh fuel (dotted comps ++ [x]) (dotted comps ++ [y]) = .ok ApkVersionLess := by
  have hd : ∀ (z : UInt8), isLower z = true → ∀ c, [z].head? = some c → isDigit c = false := by
    intro z hz c hc
    simp only [List.head?_cons, Option.some.injEq] at hc
    rw [← hc]; exact isDigit_of_isLower z hz
  apply compareFresh_less_of_next comps hne hwf _ _ (by simp) (by simp) (hd x hx) (hd y hy)
    fuel hf
  intro v
  rw [nextTokenL_letter x [] hx, nextTokenL_letter y [] hy]
  simp only [List.drop_zero]
  rw [keys_letter_end, keys_letter_end]
  exact List.Lex.cons (List.Lex.cons (List.Lex.rel (by omega)))

theorem C14_letter_suffix_witness :
    [bytes "1", bytes "0"] ≠ [] ∧ (∀ c ∈ [bytes "1", bytes "0"], isDigitRun c = true) ∧
      isLower (ch 'a') = true ∧ isLower (ch 'b') = true ∧ (ch 'a').toNat < (ch 'b').toNat ∧
      2 * min (dotted [bytes "1", bytes "0"] ++ [ch 'a']).length
        (dotted [bytes "1", bytes "0"] ++ [ch 'b']).length + 3 ≤ 11 ∧
      compareFresh 11 (dotted [bytes "1", bytes "0"] ++ [ch 'a'])
        (dotted [bytes "1", bytes "0"] ++ [ch 'b']) = .ok ApkVersionLess :=
  ⟨by decide, by decide, by decide, by decide, by decide, by decide,
    C14_letter_suffix 11 [bytes "1", bytes "0"] (ch 'a') (ch 'b') (by decide) (by decide)
      (by decide) (by decide) (by decide) (by decide)⟩

/-! ## Claims on the tokenizer -/

theorem clamp_cases (ret cur : tokenType) : clamp ret cur = ret ∨ clamp ret cur = tokenInvalid := by
  cases ret <;> cases cur <;> decide

/-- What the final check of `nextToken` lets through, for every scanned type and every
previous type. -/
theorem clamp_spec (ret cur : tokenType) :
    clamp ret cur = tokenInvalid ∨ cur.toInt ≤ (clamp ret cur).toInt ∨
      (clamp ret cur = tokenDigitOrZero ∧ cur = tokenDigit) ∨
      (clamp ret cur = tokenSuffix ∧ cur = tokenSuffixNo) ∨
      (clamp ret cur = tokenDigit ∧ cur = tokenLetter) := by
  cases ret <;> cases cur <;> decide

theorem scanL_letter (cur : tokenType) (r : List UInt8) (h : (scanL cur r).1 = tokenLetter) :
    cur = tokenDigit ∨ cur = tokenDigitOrZero := by
  cases r with
  | nil => simp [scanL] at h
  | cons c cs =>
    simp only [scanL] at h
    by_cases h1 : (cur = tokenDigit ∨ cur = tokenDigitOrZero) ∧ isLower c = true
    · exact h1.1
    · rw [if_neg h1] at h
      exfalso
      split at h
      · simp at h
      · split at h
        · simp at h
        · split at h
          · simp at h
          · split at h
            · simp at h
            · split at h
              · split at h
                · split at h <;> simp at h
                · simp at h
              · simp at h

/-- A call of `getToken` that consumes nothing returns `tokenEnd`, `tokenInvalid`, or, with
a pending `tokenDigit` or `tokenDigitOrZero` and bytes left, `tokenLetter`. -/
theorem getTokenL_stall (cur : tokenType) (r : List UInt8) (h0 : (getTokenL cur r).2.2 = 0) :
    (getTokenL cur r).1 = tokenEnd ∨ (getTokenL cur r).1 = tokenInvalid ∨
      ((getTokenL cur r).1 = tokenLetter ∧ (cur = tokenDigit ∨ cur = tokenDigitOrZero) ∧
        r ≠ []) := by
  by_cases hr : r = []
  · left; simp [getTokenL, hr]
  · simp only [getTokenL, hr, if_false] at h0 ⊢
    cases hs : switchL cur r with
    | none => right; left; rfl
    | some x =>
      obtain ⟨nt, i, val⟩ := x
      rw [hs] at h0
      simp only at h0 ⊢
      by_cases hdrop : r.drop i = []
      · left; simp [hdrop]
      · simp only [hdrop, if_false] at h0 ⊢
        by_cases hnt : nt = tokenInvalid
        · simp only [hnt, if_true] at h0 ⊢
          have hi : i = 0 := by omega
          have hn : (nextTokenL cur (r.drop i)).2 = 0 := by omega
          subst hi
          simp only [List.drop_zero] at hn ⊢
          have hz := switchL_zero cur r nt val hs
          rcases nextTokenL_zero cur r hz.1 hr hn with h1 | h1
          · right; right
            refine ⟨h1, ?_, hr⟩
            apply scanL_letter cur r
            have h2 : clamp (scanL cur r).1 cur = tokenLetter := h1
            rcases clamp_cases (scanL cur r).1 cur with h3 | h3
            · rw [← h3]; exact h2
            · rw [h3] at h2; exact absurd h2 (by decide)
          · right; left; exact h1
        · simp only [hnt, if_false] at h0
          have hz := switchL_zero cur r nt val (by rw [hs, h0])
          exact absurd hz.2 hnt

/-- With a pending `tokenLetter` and bytes left `getToken` consumes at least the letter. -/
theorem getTokenL_letter_advance (r : List UInt8) (hr : r ≠ []) :
    1 ≤ (getTokenL tokenLetter r).2.2 := by
  simp only [getTokenL, hr, if_false, switchL]
  split <;> simp

/-- C17 (as stated, refuted). On the one-byte string `"a"`, `getToken(tokenDigit)` returns
the type `tokenLetter` (with value 0) and leaves the cursor at position 0: the call neither
advances nor returns `tokenEnd` or `tokenInvalid`. -/
theorem C17_progress_counterexample :
    (NewVersion (bytes "a")).getToken tokenDigit =
      .ok ((tokenLetter, 0), { version := bytes "a", pos := 0 }) := by
  decide

/-- C17 (amended). For every cursor with `pos ≤ len` and every pending type `cur`,
`getToken(cur)` strictly increases `pos`, or returns `tokenEnd` or `tokenInvalid`, or, when
`cur` is `tokenDigit` or `tokenDigitOrZero`, returns `tokenLetter` with the cursor
unchanged; in that last case the next call, `getToken(tokenLetter)`, strictly increases
`pos`. -/
theorem C17_progress_amended (v : ApkVersion) (cur : tokenType)
    (hv : v.pos ≤ v.version.length) :
    ∃ (t : tokenType) (val : Int) (v1 : ApkVersion), v.getToken cur = .ok ((t, val), v1) ∧
      (v.pos < v1.pos ∨ t = tokenEnd ∨ t = tokenInvalid ∨
        (t = tokenLetter ∧ (cur = tokenDigit ∨ cur = tokenDigitOrZero) ∧ v1 = v ∧
          ∃ (t2 : tokenType) (val2 : Int) (v2 : ApkVersion),
            v1.getToken tokenLetter = .ok ((t2, val2), v2) ∧ v1.pos < v2.pos)) := by
  have hg := ApkVersion.getToken_eq v cur hv
  refine ⟨_, _, _, hg.1, ?_⟩
  by_cases h0 : (getTokenL cur v.rest).2.2 = 0
  · rcases getTokenL_stall cur v.rest h0 with h | h | ⟨h1, h2, h3⟩
    · exact Or.inr (Or.inl h)
    · exact Or.inr (Or.inr (Or.inl h))
    · have hsame : v.advance (getTokenL cur v.rest).2.2 = v := by
        rw [h0]; simp [ApkVersion.advance]
      refine Or.inr (Or.inr (Or.inr ⟨h1, h2, hsame, ?_⟩))
      rw [hsame]
      have hg2 := ApkVersion.getToken_eq v tokenLetter hv
      refine ⟨_, _, _, hg2.1, ?_⟩
      have := getTokenL_letter_advance v.rest h3
      simp only [ApkVersion.advance]
      omega
  · left
    simp only [ApkVersion.advance]
    omega

theorem C17_progress_amended_witness :
    (NewVersion (bytes "a")).pos ≤ (NewVersion (bytes "a")).version.length ∧
      ∃ (t : tokenType) (val : Int) (v1 : ApkVersion),
        (NewVersion (bytes "a")).getToken tokenDigit = .ok ((t, val), v1) ∧
        ((NewVersion (bytes "a")).pos < v1.pos ∨ t = tokenEnd ∨ t = tokenInvalid ∨
          (t = tokenLetter ∧ (tokenDigit = tokenDigit ∨ tokenDigit = tokenDigitOrZero) ∧
            v1 = NewVersion (bytes "a") ∧
            ∃ (t2 : tokenType) (val2 : Int) (v2 : ApkVersion),
              v1.getToken tokenLetter = .ok ((t2, val2), v2) ∧ v1.pos < v2.pos)) :=
  ⟨by decide, C17_progress_amended (NewVersion (bytes "a")) tokenDigit (by decide)⟩

/-- C18. Cursor invariant: on every cursor with `pos ≤ len(version)` and for every pending
type `cur`, `nextToken(cur)` and `getToken(cur)` complete without a panic (the result is
`.ok`, so no index went out of range and `skip` did not panic), leave the version string
unchanged, and leave the position between the old position and the length. -/
theorem C18_cursor_invariant (v : ApkVersion) (cur : tokenType)
    (hv : v.pos ≤ v.version.length) :
    (∃ (t : tokenType) (v1 : ApkVersion), v.nextToken cur = .ok (t, v1) ∧
        v1.version = v.version ∧ v.pos ≤ v1.pos ∧ v1.pos ≤ v1.version.length) ∧
      (∃ (t : tokenType) (val : Int) (v1 : ApkVersion), v.getToken cur = .ok ((t, val), v1) ∧
        v1.version = v.version ∧ v.pos ≤ v1.pos ∧ v1.pos ≤ v1.version.length) := by
  have hn := ApkVersion.nextToken_eq v cur hv
  have hg := ApkVersion.getToken_eq v cur hv
  have hl := ApkVersion.rest_length v
  constructor
  · refine ⟨_, _, hn.1, rfl, ?_, ?_⟩
    · simp only [ApkVersion.advance]; omega
    · have := hn.2
      simp only [ApkVersion.advance]; omega
  · refine ⟨_, _, _, hg.1, rfl, ?_, ?_⟩
    · simp only [ApkVersion.advance]; omega
    · have := hg.2
      simp only [ApkVersion.advance]; omega

theorem C18_cursor_invariant_witness :
    (2 : Nat) ≤ (bytes "1.0-r1").length ∧
      (∃ (t : tokenType) (v1 : ApkVersion),
          ApkVersion.nextToken { version := bytes "1.0-r1", pos := 2 } tokenDigitOrZero =
            .ok (t, v1) ∧
          v1.version = bytes "1.0-r1" ∧ 2 ≤ v1.pos ∧ v1.pos ≤ v1.version.length) ∧
      (∃ (t : tokenType) (val : Int) (v1 : ApkVersion),
          ApkVersion.getToken { version := bytes "1.0-r1", pos := 2 } tokenDigitOrZero =
            .ok ((t, val), v1) ∧
          v1.version = bytes "1.0-r1" ∧ 2 ≤ v1.pos ∧ v1.pos ≤ v1.version.length) :=
  ⟨by decide, C18_cursor_invariant { version := bytes "1.0-r1", pos := 2 } tokenDigitOrZero
    (by decide)⟩

/-- C19. Monotonicity clamp: on every cursor with `pos ≤ len` and for every previous type
`cur`, `nextToken(cur)` returns a type `r` that is `tokenInvalid`, or is not below `cur` in
the order of the token types, or forms with `cur` one of the pairs
(`tokenDigitOrZero`, `tokenDigit`), (`tokenSuffix`, `tokenSuffixNo`),
(`tokenDigit`, `tokenLetter`). -/
theorem C19_monotonicity_clamp (v : ApkVersion) (cur : tokenType)
    (hv : v.pos ≤ v.version.length) :
    ∃ (r : tokenType) (v1 : ApkVersion), v.nextToken cur = .ok (r, v1) ∧
      (r = tokenInvalid ∨ cur.toInt ≤ r.toInt ∨
        (r = tokenDigitOrZero ∧ cur = tokenDigit) ∨
        (r = tokenSuffix ∧ cur = tokenSuffixNo) ∨
        (r = tokenDigit ∧ cur = tokenLetter)) := by
  have hn := ApkVersion.nextToken_eq v cur hv
  exact ⟨_, _, hn.1, clamp_spec (scanL cur v.rest).1 cur⟩

theorem C19_monotonicity_clamp_witness :
    (6 : Nat) ≤ (bytes "1.0-r1.2").length ∧
      ∃ (r : tokenType) (v1 : ApkVersion),
        ApkVersion.nextToken { version := bytes "1.0-r1.2", pos := 6 } tokenRevisionNo =
          .ok (r, v1) ∧
        (r = tokenInvalid ∨ tokenRevisionNo.toInt ≤ r.toInt ∨
          (r = tokenDigitOrZero ∧ tokenRevisionNo = tokenDigit) ∨
          (r = tokenSuffix ∧ tokenRevisionNo = tokenSuffixNo) ∨
          (r = tokenDigit ∧ tokenRevisionNo = tokenLetter)) :=
  ⟨by decide, C19_monotonicity_clamp { version := bytes "1.0-r1.2", pos := 6 } tokenRevisionNo
    (by decide)⟩

/-! ## Claims on the comparison -/

/-- C16 (as stated, refuted). For `A = "1.1a"` and `B = "1.1.1"` the loop stops with equal
values 1 and the pending types `tokenLetter` for `A` and `tokenDigitOrZero` for `B`; the
pending type of `A` has the higher rank, and `CompareVersions` returns `ApkVersionLess`,
not `ApkVersionGreater`. -/
theorem C16_rank_rule_counterexample :
    (fun s => (s.aty, s.aval, s.bty, s.bval)) <$>
        compareLoop 9 ⟨tokenDigit, 0, NewVersion (bytes "1.1a"),
          tokenDigit, 0, NewVersion (bytes "1.1.1")⟩ =
        .ok (tokenLetter, 1, tokenDigitOrZero, 1) ∧
      tokenDigitOrZero.toInt < tokenLetter.toInt ∧
      compareFresh 9 (bytes "1.1a") (bytes "1.1.1") = .ok ApkVersionLess ∧
      compareFresh 9 (bytes "1.1a") (bytes "1.1.1") ≠ .ok ApkVersionGreater := by
  decide

/-- C16 (amended). When the loop of `CompareVersions` stops with equal values and different
pending types, neither of them `tokenSuffix`, `tokenEnd` or `tokenInvalid`, the side whose
pending type has the higher rank is the lesser one: `CompareVersions(A, B)` is
`ApkVersionLess` when the pending type of `A` ranks above that of `B`. -/
theorem C16_rank_rule_amended (fuel : Nat) (A B : List UInt8) (s : LoopState)
    (hloop : compareLoop fuel ⟨tokenDigit, 0, NewVersion A, tokenDigit, 0, NewVersion B⟩ = .ok s)
    (hval : s.aval = s.bval)
    (ha : s.aty ≠ tokenSuffix ∧ s.aty ≠ tokenEnd ∧ s.aty ≠ tokenInvalid)
    (hb : s.bty ≠ tokenSuffix ∧ s.bty ≠ tokenEnd ∧ s.bty ≠ tokenInvalid)
    (hrank : s.bty.toInt < s.aty.toInt) :
    compareFresh fuel A B = .ok ApkVersionLess := by
  have hne : s.aty ≠ s.bty := by
    intro h; rw [h] at hrank; omega
  have h1 : ¬ s.aval < s.bval := by omega
  have h2 : ¬ s.aval > s.bval := by omega
  have h3 : s.aty.toInt > s.bty.toInt := hrank
  simp only [compareFresh, CompareVersions, hloop, compareTail, h1, h2, hne, ha.1, hb.1, h3,
    bind, Except.bind, pure, Except.pure, Functor.map, Except.map, if_false, if_true,
    false_and]

theorem C16_rank_rule_amended_witness :
    compareLoop 9 ⟨tokenDigit, 0, NewVersion (bytes "1.1a"),
        tokenDigit, 0, NewVersion (bytes "1.1.1")⟩ =
        .ok ⟨tokenLetter, 1, { version := bytes "1.1a", pos := 3 },
          tokenDigitOrZero, 1, { version := bytes "1.1.1", pos := 4 }⟩ ∧
      compareFresh 9 (bytes "1.1a") (bytes "1.1.1") = .ok ApkVersionLess :=
  ⟨by decide,
    C16_rank_rule_amended 9 (bytes "1.1a") (bytes "1.1.1")
      ⟨tokenLetter, 1, { version := bytes "1.1a", pos := 3 },
        tokenDigitOrZero, 1, { version := bytes "1.1.1", pos := 4 }⟩
      (by decide) (by decide) (by decide) (by decide) (by decide)⟩

theorem digitRun_zeros (S : List UInt8) : ∀ k : Nat,
    digitRun (List.replicate k (ch '0') ++ S) 0 = (k + (digitRun S 0).1, (digitRun S 0).2) := by
  intro k
  induction k with
  | zero => simp
  | succ n ih =>
    have h0 : isDigit (ch '0') = true := by decide
    have hw : wrapInt (wrapInt (0 * 10) + ((ch '0' - ch '0').toNat : Int)) = 0 := by decide
    have step : digitRun (ch '0' :: (List.replicate n (ch '0') ++ S)) 0 =
        ((digitRun (List.replicate n (ch '0') ++ S) 0).1 + 1,
          (digitRun (List.replicate n (ch '0') ++ S) 0).2) := by
      simp only [digitRun, h0, if_true, hw]
    rw [List.replicate_succ, List.cons_append, step, ih]
    simp only [Prod.mk.injEq, and_true]
    omega

/-- Zeros in front of the string do not change the first token. -/
theorem getTokenL_leading_zeros (S : List UInt8) (k : Nat) :
    getTokenL tokenDigit (List.replicate k (ch '0') ++ S) =
      ((getTokenL tokenDigit S).1, (getTokenL tokenDigit S).2.1,
        k + (getTokenL tokenDigit S).2.2) := by
  have hdr := digitRun_zeros S k
  have hdrop : ∀ i, (List.replicate k (ch '0') ++ S).drop (k + i) = S.drop i := by
    intro i
    rw [List.drop_append_eq_append_drop]
    simp
  by_cases hk : k = 0
  · subst hk; simp
  have hne : List.replicate k (ch '0') ++ S ≠ [] := by
    cases k with
    | zero => exact absurd rfl hk
    | succ n => simp [List.replicate_succ]
  by_cases hS : S = []
  · subst hS
    have h1 := hdrop 0
    simp only [List.append_nil, Nat.add_zero] at h1 hne hdr
    simp [getTokenL, hne, switchL, hdr, digitRun, h1]
  · simp only [getTokenL, hne, hS, if_false, switchL, hdr, hdrop]
    by_cases hd : S.drop (digitRun S 0).1 = []
    · simp [hd]
    · simp [hd, Nat.add_assoc]

theorem keys_leading_zeros (S : List UInt8) (k : Nat) :
    keys tokenDigit 0 (List.replicate k (ch '0') ++ S) = keys tokenDigit 0 S := by
  have hdrop : (List.replicate k (ch '0') ++ S).drop (k + (getTokenL tokenDigit S).2.2) =
      S.drop (getTokenL tokenDigit S).2.2 := by
    rw [List.drop_append_eq_append_drop]
    simp
  rw [keys_eq tokenDigit 0 (List.replicate k (ch '0') ++ S), keys_eq tokenDigit 0 S,
    getTokenL_leading_zeros, key_numeric _ _ (by decide), key_numeric _ _ (by decide)]
  simp only [hdrop]

/-- C20. Zeros in front of the first component are insignificant: for every string `S` whose
leading digit run has at most 18 digits and every `k`,
`CompareVersions(NewVersion(0^k S), NewVersion(S)) = ApkVersionEqual`. (The zeros keep the
accumulated value at 0, so the bound on the digit run is not needed by the proof.) -/
theorem C20_first_component_zeros (fuel : Nat) (S : List UInt8) (k : Nat)
    (_hS : (digitRun S 0).1 ≤ 18)
    (hf : 2 * min (List.replicate k (ch '0') ++ S).length S.length + 3 ≤ fuel) :
    compareFresh fuel (List.replicate k (ch '0') ++ S) S = .ok ApkVersionEqual := by
  obtain ⟨r, hr, hv⟩ := compareFresh_spec fuel _ _ hf
  rw [keys_leading_zeros] at hv
  rw [hr]
  rcases hv with ⟨_, h⟩ | ⟨h, _⟩ | ⟨_, h⟩
  · exact absurd h (lex_irrefl _)
  · rw [h]
  · exact absurd h (lex_irrefl _)

theorem C20_first_component_zeros_witness :
    (digitRun (bytes "1.0_rc2") 0).1 ≤ 18 ∧
      2 * min (List.replicate 2 (ch '0') ++ bytes "1.0_rc2").length (bytes "1.0_rc2").length + 3
        ≤ 17 ∧
      compareFresh 17 (List.replicate 2 (ch '0') ++ bytes "1.0_rc2") (bytes "1.0_rc2") =
        .ok ApkVersionEqual :=
  ⟨by decide, by decide,
    C20_first_component_zeros 17 (bytes "1.0_rc2") 2 (by decide) (by decide)⟩

/-! ## Calling `CompareVersions` again on the same handles -/

theorem Verdict.unique {r q : Nat} {x y : List Int} (h1 : Verdict r x y) (h2 : Verdict q x y) :
    r = q := by
  rcases h1 with ⟨hr, hl⟩ | ⟨hr, he⟩ | ⟨hr, hg⟩
  · rw [hr]; exact (h2.eq_less hl).symm
  · rcases h2 with ⟨_, hl⟩ | ⟨hq, _⟩ | ⟨_, hg⟩
    · rw [he] at hl; exact absurd hl (lex_irrefl _)
    · rw [hr, hq]
    · rw [he] at hg; exact absurd hg (lex_irrefl _)
  · rw [hr]; exact (h2.eq_greater hg).symm

/-- The loop of `CompareVersions` keeps both cursors valid and only moves them forward. -/
theorem compareLoop_valid : ∀ (fuel : Nat) (s s1 : LoopState), s.a.valid → s.b.valid →
    compareLoop fuel s = .ok s1 →
    s1.a.valid ∧ s1.b.valid ∧ s1.a.rest.length ≤ s.a.rest.length ∧
      s1.b.rest.length ≤ s.b.rest.length := by
  intro fuel
  induction fuel with
  | zero => intro s s1 _ _ h; simp [compareLoop] at h
  | succ n ih =>
    intro s s1 ha hb h
    by_cases hc : s.aty = s.bty ∧ s.aty ≠ tokenEnd ∧ s.aty ≠ tokenInvalid ∧ s.aval = s.bval
    · have hga := ApkVersion.getToken_eq s.a s.aty ha
      have hgb := ApkVersion.getToken_eq s.b s.bty hb
      rw [compareLoop, if_pos hc] at h
      simp only [hga.1, hgb.1, bind, Except.bind] at h
      have := ih _ s1 (ApkVersion.valid_advance s.a _ ha hga.2)
        (ApkVersion.valid_advance s.b _ hb hgb.2) h
      simp only [ApkVersion.rest_advance, List.length_drop] at this
      refine ⟨this.1, this.2.1, ?_, ?_⟩ <;> omega
    · rw [compareLoop, if_neg hc] at h
      have hs : s = s1 := by
        simp only [pure, Except.pure] at h
        injection h
      rw [← hs]
      exact ⟨ha, hb, Nat.le_refl _, Nat.le_refl _⟩

/-- The part of `CompareVersions` after the loop returns each cursor as it was or moved
forward by one token. -/
theorem compareTail_valid (s : LoopState) (r : Nat) (a1 b1 : ApkVersion) (ha : s.a.valid)
    (hb : s.b.valid) (h : compareTail s = .ok (r, a1, b1)) :
    a1.valid ∧ b1.valid ∧ a1.rest.length ≤ s.a.rest.length ∧
      b1.rest.length ≤ s.b.rest.length := by
  have hga := ApkVersion.getToken_eq s.a tokenSuffix ha
  have hgb := ApkVersion.getToken_eq s.b tokenSuffix hb
  have hva := ApkVersion.valid_advance s.a _ ha hga.2
  have hvb := ApkVersion.valid_advance s.b _ hb hgb.2
  have hla : (s.a.advance (getTokenL tokenSuffix s.a.rest).2.2).rest.length ≤ s.a.rest.length := by
    simp only [ApkVersion.rest_advance, List.length_drop]; omega
  have hlb : (s.b.advance (getTokenL tokenSuffix s.b.rest).2.2).rest.length ≤ s.b.rest.length := by
    simp only [ApkVersion.rest_advance, List.length_drop]; omega
  have key : (a1 = s.a ∨ a1 = s.a.advance (getTokenL tokenSuffix s.a.rest).2.2) ∧
      (b1 = s.b ∨ b1 = s.b.advance (getTokenL tokenSuffix s.b.rest).2.2) := by
    simp only [compareTail, bind, Except.bind, pure, Except.pure, Functor.map, Except.map] at h
    by_cases hsa : s.aty = tokenSuffix <;> by_cases hsb : s.bty = tokenSuffix <;>
      simp only [hsa, hsb, hga.1, hgb.1, if_true, if_false, true_and, false_and] at h <;>
      split_ifs at h <;> simp only [Except.ok.injEq, Prod.mk.injEq] at h <;>
      simp [← h.2.1, ← h.2.2]
  rcases key with ⟨h1 | h1, h2 | h2⟩ <;> rw [h1, h2]
  · exact ⟨ha, hb, Nat.le_refl _, Nat.le_refl _⟩
  · exact ⟨ha, hvb, Nat.le_refl _, hlb⟩
  · exact ⟨hva, hb, hla, Nat.le_refl _⟩
  · exact ⟨hva, hvb, hla, hlb⟩

/-- `CompareVersions` on two valid cursors, at any positions: it returns a verdict, the
verdict is the lexicographic order of the key sequences of the unread bytes, and the
cursors it leaves are valid and not behind the ones it was given. -/
theorem compareVersions_spec (fuel : Nat) (a b : ApkVersion) (ha : a.valid) (hb : b.valid)
    (hf : 2 * min a.rest.length b.rest.length + 3 ≤ fuel) :
    ∃ (r : Nat) (a1 b1 : ApkVersion),
      CompareVersions fuel (some a) (some b) = .ok (r, some a1, some b1) ∧
      Verdict r (keys tokenDigit 0 a.rest) (keys tokenDigit 0 b.rest) ∧
      a1.valid ∧ b1.valid ∧ a1.rest.length ≤ a.rest.length ∧ b1.rest.length ≤ b.rest.length := by
  have hma := measure_le tokenDigit a.rest
  have hmb := measure_le tokenDigit b.rest
  obtain ⟨r, a1, b1, hr, hv⟩ := compareLoop_spec fuel
    ⟨tokenDigit, 0, a, tokenDigit, 0, b⟩ ha hb
    (by
      show measure tokenDigit a.rest < fuel ∨ measure tokenDigit b.rest < fuel
      rcases Nat.le_total a.rest.length b.rest.length with h | h
      · left; rw [Nat.min_eq_left h] at hf; omega
      · right; rw [Nat.min_eq_right h] at hf; omega)
  refine ⟨r, a1, b1, ?_, hv, ?_⟩
  · simp only [bind, Except.bind] at hr
    simp only [CompareVersions, bind, Except.bind, pure, Except.pure]
    cases hl : compareLoop fuel ⟨tokenDigit, 0, a, tokenDigit, 0, b⟩ with
    | error e => rw [hl] at hr; simp at hr
    | ok s1 =>
      rw [hl] at hr
      have hr2 : compareTail s1 = .ok (r, a1, b1) := hr
      simp only [hr2]
  · simp only [bind, Except.bind] at hr
    cases hl : compareLoop fuel ⟨tokenDigit, 0, a, tokenDigit, 0, b⟩ with
    | error e => rw [hl] at hr; simp at hr
    | ok s1 =>
      rw [hl] at hr
      have hr2 : compareTail s1 = .ok (r, a1, b1) := hr
      have h1 := compareLoop_valid fuel _ s1 ha hb hl
      have h2 := compareTail_valid s1 r a1 b1 h1.1 h1.2.1 hr2
      refine ⟨h2.1, h2.2.1, ?_, ?_⟩
      · exact Nat.le_trans h2.2.2.1 h1.2.2.1
      · exact Nat.le_trans h2.2.2.2 h1.2.2.2

/-- C15 (as stated, refuted). With `a = NewVersion("1")` and `b = NewVersion("2")`, the first
call `CompareVersions(a, b)` returns `ApkVersionLess` and leaves both cursors at the end of
their strings; the second call on the same two handles returns `ApkVersionEqual`. -/
theorem C15_idempotence_counterexample :
    compareTwice 5 (some (NewVersion (bytes "1"))) (some (NewVersion (bytes "2"))) =
      .ok (ApkVersionLess, ApkVersionEqual) := by
  decide

/-- C15 (amended). For all strings `A` and `B`, two calls of `CompareVersions`, each on
freshly constructed handles `NewVersion(A)`, `NewVersion(B)`, return the same verdict
(whatever the fuel, once it suffices); a second call on the same two handles returns the
verdict of comparing the bytes that the first call left unread. -/
theorem C15_idempotence_amended (f1 f2 : Nat) (A B : List UInt8)
    (h1 : 2 * min A.length B.length + 3 ≤ f1) (h2 : 2 * min A.length B.length + 3 ≤ f2) :
    compareFresh f1 A B = compareFresh f2 A B ∧
      ∃ (r1 r2 : Nat) (a1 b1 : ApkVersion),
        CompareVersions f1 (some (NewVersion A)) (some (NewVersion B)) =
          .ok (r1, some a1, some b1) ∧
        compareTwice f1 (some (NewVersion A)) (some (NewVersion B)) = .ok (r1, r2) ∧
        compareFresh f1 a1.rest b1.rest = .ok r2 := by
  have hva : (NewVersion A).valid := by simp [NewVersion, ApkVersion.valid]
  have hvb : (NewVersion B).valid := by simp [NewVersion, ApkVersion.valid]
  have hra : (NewVersion A).rest = A := by simp [NewVersion, ApkVersion.rest]
  have hrb : (NewVersion B).rest = B := by simp [NewVersion, ApkVersion.rest]
  constructor
  · obtain ⟨r, hr, hv⟩ := compareFresh_spec f1 A B h1
    obtain ⟨q, hq, hw⟩ := compareFresh_spec f2 A B h2
    rw [hr, hq, hv.unique hw]
  · obtain ⟨r1, a1, b1, hc1, _, hva1, hvb1, hla, hlb⟩ :=
      compareVersions_spec f1 (NewVersion A) (NewVersion B) hva hvb (by rw [hra, hrb]; exact h1)
    rw [hra] at hla
    rw [hrb] at hlb
    have hf : 2 * min a1.rest.length b1.rest.length + 3 ≤ f1 := by
      omega
    obtain ⟨r2, a2, b2, hc2, hv2, _⟩ := compareVersions_spec f1 a1 b1 hva1 hvb1 hf
    obtain ⟨q, hq, hw⟩ := compareFresh_spec f1 a1.rest b1.rest hf
    refine ⟨r1, r2, a1, b1, hc1, ?_, ?_⟩
    · simp only [compareTwice, hc1, hc2, bind, Except.bind, pure, Except.pure]
    · rw [hq, hw.unique hv2]

theorem C15_idempotence_amended_witness :
    2 * min (bytes "1").length (bytes "2").length + 3 ≤ 5 ∧
      2 * min (bytes "1").length (bytes "2").length + 3 ≤ 7 ∧
      compareFresh 5 (bytes "1") (bytes "2") = compareFresh 7 (bytes "1") (bytes "2") ∧
      ∃ (r1 r2 : Nat) (a1 b1 : ApkVersion),
        CompareVersions 5 (some (NewVersion (bytes "1"))) (some (NewVersion (bytes "2"))) =
          .ok (r1, some a1, some b1) ∧
        compareTwice 5 (some (NewVersion (bytes "1"))) (some (NewVersion (bytes "2"))) =
          .ok (r1, r2) ∧
        compareFresh 5 a1.rest b1.rest = .ok r2 :=
  ⟨by decide, by decide, C15_idempotence_amended 5 7 (bytes "1") (bytes "2") (by decide)
    (by decide)⟩

end Version
